import Mathlib

/-!
# network_ping_test: latency accounting, control protocol and poll selector

A shallow embedding of `src/server.cpp` (load generator: `log2_64`, the
bucketing step and event loop of `worker_thread`, the partition and merge
loops of `run_test`, `load_from_str`, `serialize_to_str`) and of
`src/client.cpp` (`PollRSelector`, `wait_for_conn`, `run_test_th`).

Conventions
* `unsigned long` / `uint64_t` values are `Nat`, reduced `% U64` wherever the
  C++ arithmetic can wrap.
* `std::array<unsigned long, 30>` is `Fin 30 → Nat`; an access through an
  index outside `0..29` is undefined behaviour and is modelled by `none`.
* `std::string` / `const char *` are `List Char`.
* Results of system calls are inputs of the model.
-/

namespace NetworkPingTest

/-! ## Data model (`src/server.cpp`) -/

/-- Number of values of `unsigned long` / `uint64_t`. -/
def U64 : Nat := 2 ^ 64

/-- The `struct TestResult { unsigned long mcount; std::array<unsigned long, 30> lat_ns_log2; }`. -/
structure TestResult where
  mcount : Nat
  lat_ns_log2 : Fin 30 → Nat

/-- A value-initialised `TestResult` (what `tresults.resize` creates). -/
def TestResult.zero : TestResult := ⟨0, fun _ => 0⟩

/-- Sum of the 30 histogram counters. -/
def bucket_sum (lat : Fin 30 → Nat) : Nat := (List.ofFn lat).sum

/-! ## `log2_64` -/

/-- The table `const int tab64[64]`. -/
def tab64 : List Nat :=
  [63,  0, 58,  1, 59, 47, 53,  2,
   60, 39, 48, 27, 54, 33, 42,  3,
   61, 51, 37, 40, 49, 18, 28, 20,
   55, 30, 34, 11, 43, 14, 22,  4,
   62, 57, 46, 52, 38, 26, 32, 41,
   50, 36, 17, 19, 29, 10, 13, 21,
   56, 45, 25, 31, 35, 16,  9, 12,
   44, 24, 15,  8, 23,  7,  6,  5]

/-- The six `value |= value >> k` statements of `log2_64`. -/
def smear (value : Nat) : Nat :=
  let value := value ||| (value >>> 1)
  let value := value ||| (value >>> 2)
  let value := value ||| (value >>> 4)
  let value := value ||| (value >>> 8)
  let value := value ||| (value >>> 16)
  let value := value ||| (value >>> 32)
  value

/-- The table index of `log2_64`:
`((uint64_t)((value - (value >> 1)) * 0x07EDD5E59A4E28C2)) >> 58` after smearing. -/
def log2_64_index (value : Nat) : Nat :=
  let value := smear (value % U64)
  (((value - (value >>> 1)) * 0x07EDD5E59A4E28C2) % U64) >>> 58

/-- The function `int log2_64(uint64_t value)`; `none` would be a read outside `tab64`. -/
def log2_64 (value : Nat) : Option Nat :=
  tab64.get? (log2_64_index value)

/-! ## The bucketing step of `worker_thread` -/

/-- Increment `++a[i]` on a `std::array<unsigned long, 30>`: `none` when `i` is not an
index of the array. -/
def array_incr (lat : Fin 30 → Nat) (i : Nat) : Option (Fin 30 → Nat) :=
  if h : i < 30 then some (Function.update lat ⟨i, h⟩ ((lat ⟨i, h⟩ + 1) % U64)) else none

/-- The index the bucketing step writes to, for a given `tout_l2`:
`tout_l2 > (int)size ? size - 1 : tout_l2`. -/
def bucket_index (tout_l2 : Nat) : Nat :=
  if tout_l2 > 30 then 30 - 1 else tout_l2

/-- Lines 259-264 of `worker_thread`: `elapsed` is `curr_time - item.first->second`. -/
def bucket_step (lat : Fin 30 → Nat) (elapsed : Nat) : Option (Fin 30 → Nat) :=
  match log2_64 elapsed with
  | none => none
  | some tout_l2 => array_incr lat (bucket_index tout_l2)

/-! ## The event loop of `worker_thread` -/

/-- What the system hands to one iteration of the `for` loop over the ready
events (lines 246-287). -/
structure Event where
  /-- Value of `done->load()` at the top of the iteration. -/
  done : Bool
  /-- First `get_fast_time()` of the iteration. -/
  curr_time : Nat
  /-- Value of `event_it->data.fd`. -/
  fd : Int
  /-- Result of `recv`. -/
  bc : Int
  /-- Whether `ECONNRESET == errno` after `recv`. -/
  econnreset : Bool
  /-- Result of `write`. -/
  written : Int
  /-- Last `get_fast_time()` of the iteration. -/
  time_after : Nat

/-- Result of one `epoll_wait` call: `error eintr` is a negative return
(`eintr` tells whether `errno == EINTR`), `ready evs` is the return value
`evs.length` with `evs` the filled prefix of the event buffer. -/
inductive EpollResult where
  | error (eintr : Bool)
  | ready (evs : List Event)

/-- One iteration of the loop of `epoll_wait_ex`: the result of `epoll_wait`
and the value of `done->load()` read right after it. -/
structure EpollCall where
  res : EpollResult
  done : Bool

/-- The function `epoll_wait_ex`, run on the `epoll_wait` results it gets in this call:
`none` is `return false`, `some evs` is `return true` with
`ready.num_ready = evs.length`. A call whose results run out is a call that
sees the stop flag. -/
def epoll_wait_ex : List EpollCall → Option (List Event)
  | [] => none
  | c :: rest =>
    if c.done then none
    else
      match c.res with
      | .ready [] => epoll_wait_ex rest
      | .error true => epoll_wait_ex rest
      | .error false => none
      | .ready (e :: es) => some (e :: es)

/-- State of a worker: its `TestResult` and the `std::map<int, unsigned long>`
`last_time_for_socket` (one pair per key). -/
structure Worker where
  result : TestResult
  last_time_for_socket : List (Int × Nat)

/-- Assignment `item.first->second = v` through the iterator of key `k`. -/
def map_assign (m : List (Int × Nat)) (k : Int) (v : Nat) : List (Int × Nat) :=
  m.map fun p => if p.1 = k then (k, v) else p

/-- Lines 267-284: whether the `recv` / `write` part of an iteration returns
from `worker_thread`. -/
def io_returns (message_len : Int) (e : Event) : Bool :=
  let after_recv : Bool :=
    if e.econnreset then false
    else if e.bc < 0 then true
    else if e.bc = 0 then false
    else if message_len ≠ e.bc then true
    else false
  if after_recv then true
  else if message_len ≠ e.written then true
  else false

/-- Lines 267-286 after the bucketing: `recv`, `write`, and the update of the
stored time. The `Bool` is `false` when the iteration returns from
`worker_thread`. -/
def after_bucketing (message_len : Int) (e : Event) (w : Worker) : Bool × Worker :=
  if io_returns message_len e then (false, w)
  else (true, { w with last_time_for_socket :=
                  map_assign w.last_time_for_socket e.fd (e.time_after % U64) })

/-- One iteration of the `for` loop (lines 249-286). `none`: the bucketing
wrote outside the histogram. `some (false, w)`: the iteration returned from
`worker_thread`. `some (true, w)`: the loop goes on. -/
def handle_event (message_len : Int) (e : Event) (w : Worker) : Option (Bool × Worker) :=
  if e.done then some (false, w)
  else
    match w.last_time_for_socket.lookup e.fd with
    | none =>
      -- `emplace` inserted `(fd, 0)`: first observation, nothing is bucketed
      some (after_bucketing message_len e
        { w with last_time_for_socket := (e.fd, 0) :: w.last_time_for_socket })
    | some last =>
      match bucket_step w.result.lat_ns_log2 ((e.curr_time % U64 + U64 - last % U64) % U64) with
      | none => none
      | some lat =>
        some (after_bucketing message_len e { w with result := { w.result with lat_ns_log2 := lat } })

/-- The `for` loop over the ready events of one batch. -/
def handle_batch (message_len : Int) : List Event → Worker → Option (Bool × Worker)
  | [], w => some (true, w)
  | e :: es, w =>
    match handle_event message_len e w with
    | none => none
    | some (false, w1) => some (false, w1)
    | some (true, w1) => handle_batch message_len es w1

/-- Where `worker_thread` returned. -/
inductive Exit where
  /-- The call of `epoll_wait_ex` returned false (line 244). -/
  | at_wait
  /-- A `return` inside the loop over the ready events. -/
  | in_batch
  deriving DecidableEq, Repr

/-- The `for(;;)` loop of `worker_thread`; each element of the trace holds the
`epoll_wait` results of one call of `epoll_wait_ex`. The trace is finite: past
its end the stop flag is set. -/
def worker_loop (message_len : Int) : List (List EpollCall) → Worker → Option (Exit × Worker)
  | [], w => some (.at_wait, w)
  | calls :: rest, w =>
    match epoll_wait_ex calls with
    | none => some (.at_wait, w)
    | some evs =>
      match handle_batch message_len evs w with
      | none => none
      | some (false, w1) => some (.in_batch, w1)
      | some (true, w1) =>
        worker_loop message_len rest
          { w1 with result := { w1.result with mcount := (w1.result.mcount + evs.length) % U64 } }

/-- The function `worker_thread`: `result` is `*result` as the caller left it (`run_test`
passes value-initialised elements); `mcount` is reset, the map starts empty. -/
def worker_thread (message_len : Int) (result : TestResult) (trace : List (List EpollCall)) :
    Option (Exit × Worker) :=
  worker_loop message_len trace ⟨{ result with mcount := 0 }, []⟩

/-- What is read off a finished worker: where it returned, `mcount`, the sum of
the buckets, and the number of connections in `last_time_for_socket`. -/
def Worker.summary (r : Exit × Worker) : Exit × Nat × Nat × Nat :=
  (r.1, r.2.result.mcount, bucket_sum r.2.result.lat_ns_log2, r.2.last_time_for_socket.length)

/-- An iteration in which `recv` and `write` both move the whole message. -/
def echo_ok (fd : Int) (t0 t1 : Nat) : Event :=
  ⟨false, t0, fd, 64, false, 64, t1⟩

/-- Two batches on one connection; the second batch has a further event at
which the stop flag is seen. -/
def trace_stop_in_batch : List (List EpollCall) :=
  [[⟨.ready [echo_ok 5 1000 1100], false⟩],
   [⟨.ready [echo_ok 5 2100 2200, { echo_ok 6 2300 2400 with done := true }], false⟩]]

/-- One complete batch on a new connection, then a second one, then the stop
flag at the wait. -/
def trace_two_batches : List (List EpollCall) :=
  [[⟨.ready [echo_ok 5 1000 1100], false⟩],
   [⟨.ready [], false⟩, ⟨.ready [echo_ok 5 2100 2200], false⟩],
   [⟨.ready [echo_ok 5 3000 3100], true⟩]]

/-! ## Quantities used in the statements about `worker_thread` -/

/-- Buckets plus registered connections: the quantity `mcount` is compared with. -/
def Worker.acct (w : Worker) : Nat :=
  bucket_sum w.result.lat_ns_log2 + w.last_time_for_socket.length

/-- Keys of `last_time_for_socket`. -/
def Worker.keys (w : Worker) : List Int := w.last_time_for_socket.map Prod.fst

/-- The loop invariant of `worker_thread` between two batches. -/
def Worker.balanced (c : Nat) (w : Worker) : Prop :=
  w.keys.Nodup ∧ w.result.mcount < U64 ∧ w.acct % U64 = (w.result.mcount + c) % U64

/-! ## The merge loop of `run_test` (`src/server.cpp`, lines 377-383) -/

/-- Lines 381-382: `for pos in 0 .. size-1: res.lat_ns_log2[pos] += ires.lat_ns_log2[pos]`. -/
def merge_buckets (res ires : Fin 30 → Nat) : Fin 30 → Nat :=
  (List.finRange 30).foldl
    (fun acc pos => Function.update acc pos ((acc pos + ires pos) % U64)) res

/-- Body of the loop over `tresults` (lines 380-382). -/
def merge_one (res ires : TestResult) : TestResult :=
  { mcount := (res.mcount + ires.mcount) % U64
    lat_ns_log2 := merge_buckets res.lat_ns_log2 ires.lat_ns_log2 }

/-- Lines 377-383: `res.mcount = 0; res.lat_ns_log2.fill(0);` then the loop
over the per-worker results. -/
def merge_results (tresults : List TestResult) : TestResult :=
  tresults.foldl merge_one { mcount := 0, lat_ns_log2 := fun _ => 0 }

/-- Three sample per-worker results. -/
def sample_result (k : Nat) : TestResult :=
  { mcount := 10 * k + 3, lat_ns_log2 := fun i => k * i.val + 1 }

/-! ## `serialize_to_str` (`src/server.cpp`, lines 92-98) -/

/-- Output `serialized << val` for an `unsigned long`: the decimal digits of `val`,
most significant first, `0` for zero. -/
def put_unsigned (val : Nat) : List Char := Nat.toDigits 10 val

/-- The function `serialize_to_str`: `mcount`, then `" "` and the value for every entry of
`lat_ns_log2` in index order. -/
def serialize_to_str (res : TestResult) : List Char :=
  (List.ofFn res.lat_ns_log2).foldl (fun serialized val => serialized ++ ' ' :: put_unsigned val)
    (put_unsigned res.mcount)

/-- Value of a decimal digit character. -/
def digit_value (c : Char) : Option Nat :=
  if c.isDigit then some (c.toNat - '0'.toNat) else none

/-- Appends one decimal digit to the number read so far. -/
def parse_step (acc : Nat) (c : Char) : Option Nat :=
  (digit_value c).map fun d => acc * 10 + d

/-- Reads a non-empty string of decimal digits as an unsigned integer (the
reader's side of the response format). -/
def parse_unsigned (s : List Char) : Option Nat :=
  match s with
  | [] => none
  | _ => s.foldlM parse_step 0

/-- The 31 numbers of a response, in order. -/
def TestResult.fields (res : TestResult) : List Nat :=
  res.mcount :: List.ofFn res.lat_ns_log2

/-! ## `load_from_str` (`src/server.cpp`, lines 101-118)

`data` is the content of the NUL-terminated request, one `Char` per byte.
`sscanf` is modelled for the one format used, `"%s %d %d %d %d %d"`, after the
C standard: `%s` skips white space and reads the non-white-space characters
that follow; white space in the format skips white space; `%d` skips white
space and reads an optional sign and the decimal digits that follow. The value
of a `%d` field is kept as an integer (a value that does not fit `int` is not
reduced): what the program stores for a digit string outside the range of
`int` is not modelled, and every statement about converted values carries the
hypothesis that they lie in that range. -/

/-- The constant `MAX_CLIENT_MESSAGE`. -/
def MAX_CLIENT_MESSAGE : Nat := 1024

/-- The `struct TestParams`. The `int` members are integers here; only values
in the range of `int` stand for a state of the program. -/
structure TestParams where
  port : Int
  num_conn : Int
  runtime : Int
  timeout : Int
  message_len : Int
  ip : List Char
  deriving DecidableEq, Repr

/-- The test `isspace` in the C locale. -/
def is_space (c : Char) : Bool :=
  c = ' ' || c = '\t' || c = '\n' || c = '\x0b' || c = '\x0c' || c = '\r'

/-- Skipping of white space by `sscanf`. -/
def skip_space (input : List Char) : List Char := input.dropWhile is_space

/-- The `%s` conversion: the token and the rest of the input; `none` when the
input ends before a token starts. -/
def scan_s (input : List Char) : Option (List Char × List Char) :=
  let r := skip_space input
  let tok := r.takeWhile fun c => !is_space c
  if tok = [] then none else some (tok, r.dropWhile fun c => !is_space c)

/-- Value of a string of decimal digits. -/
def digits_value (ds : List Char) : Nat :=
  ds.foldl (fun acc c => acc * 10 + (c.toNat - '0'.toNat)) 0

/-- The `%d` conversion: the value and the rest of the input; `none` when no
digit follows the optional sign. The value is the one written; for a digit
string outside the range of `int` the C standard leaves the stored value
undefined, and no statement is made about that case. -/
def scan_d (input : List Char) : Option (Int × List Char) :=
  let r := skip_space input
  let signed : Bool × List Char :=
    match r with
    | [] => (false, r)
    | c :: t => if c = '-' then (true, t) else if c = '+' then (false, t) else (false, r)
  let ds := signed.2.takeWhile Char.isDigit
  if ds = [] then none
  else some (if signed.1 then -(digits_value ds : Int) else (digits_value ds : Int),
             signed.2.dropWhile Char.isDigit)

/-- The directives ` %d` repeated `k` times: the values converted before the
first failure. -/
def scan_ints : Nat → List Char → List Int
  | 0, _ => []
  | k + 1, input =>
    match scan_d (skip_space input) with
    | none => []
    | some (v, rest) => v :: scan_ints k rest

/-- The call `sscanf(data, "%s %d %d %d %d %d", ...)`: the return value (`-1` is `EOF`),
the token stored by `%s`, and the values stored by the `%d` conversions. -/
def sscanf_s_5d (data : List Char) : Int × List Char × List Int :=
  match scan_s data with
  | none => (-1, [], [])
  | some (tok, rest) =>
    let vals := scan_ints 5 rest
    (1 + vals.length, tok, vals)

/-- Outcome of `load_from_str`. -/
inductive LoadResult where
  /-- The function did `return false`. -/
  | rejected
  /-- The function did `return true`, with `params` as filled. -/
  | accepted (params : TestParams)
  /-- The conversion `%s` stored a token and its NUL past the end of `params.ip`. -/
  | ip_overflow
  deriving DecidableEq, Repr

/-- The function `load_from_str`; `sizeof(params.ip)` is `MAX_CLIENT_MESSAGE + 1`. -/
def load_from_str (data : List Char) : LoadResult :=
  if data.length > MAX_CLIENT_MESSAGE + 1 then .rejected
  else
    match sscanf_s_5d data with
    | (num_scanned, tok, vals) =>
      if tok.length + 1 > MAX_CLIENT_MESSAGE + 1 then .ip_overflow
      else if num_scanned ≠ 6 then .rejected
      else .accepted
        { ip := tok
          port := vals.getD 0 0
          num_conn := vals.getD 1 0
          runtime := vals.getD 2 0
          timeout := vals.getD 3 0
          message_len := vals.getD 4 0 }

/-- The white-space-separated fields of a request. -/
def fields_of (data : List Char) : List (List Char) :=
  (data.splitOnP is_space).filter fun f => f ≠ []

/-- A decimal integer field with the white space before it: an optional sign
and decimal digits. -/
structure IntField where
  ws : List Char
  sign : List Char
  digits : List Char

/-- Text of an integer field. -/
def IntField.text (f : IntField) : List Char := f.ws ++ (f.sign ++ f.digits)

/-- Value of an integer field. -/
def IntField.value (f : IntField) : Int :=
  if f.sign = ['-'] then -(digits_value f.digits : Int) else (digits_value f.digits : Int)

/-- Well-formed integer field: some white space, then `+`, `-` or nothing, then
at least one decimal digit. -/
def IntField.wf (f : IntField) : Prop :=
  f.ws ≠ [] ∧ (∀ c ∈ f.ws, is_space c = true) ∧
  (f.sign = [] ∨ f.sign = ['+'] ∨ f.sign = ['-']) ∧
  f.digits ≠ [] ∧ ∀ c ∈ f.digits, c.isDigit = true

/-- A request text: a token, integer fields, and what follows them. -/
def request_text (tok : List Char) (fs : List IntField) (rest : List Char) : List Char :=
  tok ++ ((fs.map IntField.text).flatten ++ rest)

/-- The input is at its end or continues with a character on which `p` is false. -/
def stops_at (p : Char → Bool) (r : List Char) : Prop :=
  ∀ c t, r = c :: t → p c = false

instance IntField.decidable_wf (f : IntField) : Decidable f.wf := by
  unfold IntField.wf
  infer_instance

/-- The `TestParams` filled from a token and the values of five fields. -/
def params_of (tok : List Char) (vals : List Int) : TestParams :=
  { ip := tok
    port := vals.getD 0 0
    num_conn := vals.getD 1 0
    runtime := vals.getD 2 0
    timeout := vals.getD 3 0
    message_len := vals.getD 4 0 }

/-- A decimal field after one space. -/
def plain_field (digits : String) : IntField := ⟨[' '], [], digits.toList⟩

/-! ## `PollRSelector` (`src/client.cpp`, lines 41-91)

The iterators `current_free` and `current_ready` are positions in `fds`. -/

/-- The `struct pollfd` of `<poll.h>`. -/
structure pollfd where
  fd : Int
  events : Nat
  revents : Nat
  deriving DecidableEq, Repr

/-- The constant `POLLIN` of `<poll.h>`. -/
def POLLIN : Nat := 1

/-- The `class PollRSelector`. -/
structure PollRSelector where
  fds : List pollfd
  current_free : Nat
  current_ready : Nat
  deriving DecidableEq, Repr

/-- Assignment through an iterator at position `i`: the entry at `i` becomes
`f` of itself. -/
def modify_at (f : pollfd → pollfd) : List pollfd → Nat → List pollfd
  | [], _ => []
  | p :: ps, 0 => f p :: ps
  | p :: ps, i + 1 => p :: modify_at f ps i

/-- Constructor `PollRSelector(int fd_count)`: `fd_count` entries, zeroed by
`memset`, both iterators at `fds.begin()`. -/
def PollRSelector.init (fd_count : Nat) : PollRSelector :=
  { fds := List.replicate fd_count ⟨0, 0, 0⟩, current_free := 0, current_ready := 0 }

/-- Method `add_fd`: the returned flag and the selector after the call. -/
def PollRSelector.add_fd (s : PollRSelector) (sockfd : Int) : Bool × PollRSelector :=
  if s.current_free = s.fds.length then (false, s)
  else
    (true,
     { s with
       fds := modify_at (fun p => { p with fd := sockfd, events := POLLIN }) s.fds s.current_free
       current_free := s.current_free + 1 })

/-- What `poll(&fds[0], nfds, -1)` leaves in the array, from position `pos` on:
in each of the first `nfds` entries `revents` is 0 for a negative `fd` and the
readiness `os` reports for the position otherwise. -/
def poll_from (os : Nat → Nat) (nfds : Nat) : Nat → List pollfd → List pollfd
  | _, [] => []
  | pos, p :: ps =>
    (if pos < nfds then { p with revents := if p.fd < 0 then 0 else os pos } else p)
      :: poll_from os nfds (pos + 1) ps

/-- Method `wait`: `failed` tells whether `poll` returned -1, `os` is the readiness the
system reports per position. -/
def PollRSelector.wait (s : PollRSelector) (failed : Bool) (os : Nat → Nat) :
    Bool × PollRSelector :=
  if failed then (false, s)
  else (true, { s with fds := poll_from os s.current_free 0 s.fds, current_ready := 0 })

/-- The `for` loop of `next` over the entries from `current_ready` on (at
position `pos`): the reported pair, if any, and the new `current_ready`. -/
def next_scan : List pollfd → Nat → Option (Int × Nat) × Nat
  | [], pos => (none, pos)
  | p :: ps, pos =>
    if p.revents = 0 ∨ p.fd = -1 then next_scan ps (pos + 1)
    else (some (p.fd, p.revents), pos + 1)

/-- Method `next`: `some (sockfd, flags)` when it returns true. -/
def PollRSelector.next (s : PollRSelector) : Option (Int × Nat) × PollRSelector :=
  let r := next_scan (s.fds.drop s.current_ready) s.current_ready
  (r.1, { s with current_ready := r.2 })

/-- Method `remove_current_ready`: `(current_ready - 1)->fd = -1`; `none` when
`current_ready` is `fds.begin()`, where `current_ready - 1` is outside the array. -/
def PollRSelector.remove_current_ready (s : PollRSelector) : Option PollRSelector :=
  if s.current_ready = 0 then none
  else some { s with fds := modify_at (fun p => { p with fd := -1 }) s.fds (s.current_ready - 1) }

/-- A report of `next`: the position of the entry (`current_ready - 1` after the
call), the descriptor and the flags. -/
structure Report where
  pos : Nat
  sockfd : Int
  flags : Nat
  deriving DecidableEq, Repr

/-- The caller's loop `while (selector.next(sockfd, events))`, at most `fuel`
calls of `next`: the reports in order and the selector after the last call. -/
def drain : Nat → PollRSelector → List Report × PollRSelector
  | 0, s => ([], s)
  | fuel + 1, s =>
    match s.next with
    | (none, s1) => ([], s1)
    | (some x, s1) =>
      let r := drain fuel s1
      (⟨s1.current_ready - 1, x.1, x.2⟩ :: r.1, r.2)

/-- Successive `add_fd` calls: the returned flags in call order and the final
selector. -/
def add_all : List Int → PollRSelector → List Bool × PollRSelector
  | [], s => ([], s)
  | fd :: rest, s =>
    let r := s.add_fd fd
    let q := add_all rest r.2
    (r.1 :: q.1, q.2)

/-- Position, descriptor and reported readiness of every entry of `registered`
(the entries from position `pos` on) that has a non-negative descriptor and
non-zero readiness, in registration order. -/
def ready_from (os : Nat → Nat) (pos : Nat) (registered : List pollfd) : List Report :=
  ((registered.enumFrom pos).filter fun ip => decide (0 ≤ ip.2.fd) && decide (os ip.1 ≠ 0)).map
    fun ip => ⟨ip.1, ip.2.fd, os ip.1⟩

/-- The entries a `wait` makes ready, from the registered entries and the
readiness the system reports. -/
def ready_entries (registered : List pollfd) (os : Nat → Nat) : List Report :=
  ready_from os 0 registered

/-- Position, descriptor and `revents` of every entry (from position `pos` on)
with non-zero `revents` whose descriptor is not -1, in array order. -/
def flagged_from (pos : Nat) (fds : List pollfd) : List Report :=
  ((fds.enumFrom pos).filter fun ip => decide (ip.2.revents ≠ 0) && decide (ip.2.fd ≠ -1)).map
    fun ip => ⟨ip.1, ip.2.fd, ip.2.revents⟩

/-- Invariant of a selector: `current_free` is inside the array and the entries
from `current_free` on have never been polled (`revents` is 0). -/
def PollRSelector.inv (s : PollRSelector) : Prop :=
  s.current_free ≤ s.fds.length ∧ ∀ p ∈ s.fds.drop s.current_free, p.revents = 0

instance PollRSelector.decidable_inv (s : PollRSelector) : Decidable s.inv := by
  unfold PollRSelector.inv
  infer_instance

/-- A selector of capacity 4 with descriptors 7, 8, 9 registered. -/
def sel3 : PollRSelector := (add_all [7, 8, 9] (PollRSelector.init 4)).2

/-- Readiness: positions 0 and 2 readable, nothing else. -/
def os02 (i : Nat) : Nat := if i = 0 ∨ i = 2 then POLLIN else 0

/-- The entry `add_fd` leaves for a descriptor in a fresh slot: read interest,
no readiness yet. -/
def registered_entry (sockfd : Int) : pollfd := ⟨sockfd, POLLIN, 0⟩

/-- A call on a selector. -/
inductive Op where
  | add_fd (sockfd : Int)
  | wait (failed : Bool) (os : Nat → Nat)
  | next
  | remove_current_ready

/-- The selector after one call; `none` when `remove_current_ready` is called
with `current_ready` at `fds.begin()`. -/
def Op.step : Op → PollRSelector → Option PollRSelector
  | .add_fd sockfd, s => some (s.add_fd sockfd).2
  | .wait failed os, s => some (s.wait failed os).2
  | .next, s => some s.next.2
  | .remove_current_ready, s => s.remove_current_ready

/-- The selector after a sequence of calls. -/
def run_ops : List Op → PollRSelector → Option PollRSelector
  | [], s => some s
  | op :: ops, s =>
    match op.step s with
    | none => none
    | some s1 => run_ops ops s1

/-- The entry at position `i` is registered and marked removed. -/
def PollRSelector.removed (s : PollRSelector) (i : Nat) : Prop :=
  i < s.current_free ∧ s.current_free ≤ s.fds.length ∧
  s.fds[i]?.map pollfd.fd = some (-1)

/-- The selector `sel3` after a `wait` with readiness `os02`. -/
def sel3_ready : PollRSelector := (sel3.wait false os02).2

/-! ## The partition loop of `run_test` (`src/server.cpp`, lines 303-333)

`sockets` is `sockets.fds` after `connect_all`, so `params.num_conn` is its
length; `epoll_create1` and `epoll_ctl` are taken to succeed. -/

/-- Outcome of the partition loop. -/
inductive Partition where
  /-- The division `params.num_conn / worker_threads` with `worker_threads == 0`. -/
  | div_by_zero
  /-- The branch `begin_iter == end_iter`: "An issue", `return false`. -/
  | issue
  /-- Either `begin_iter` is past `end_iter`, or `end_iter` past `sockets.fds.end()`:
  the registration loop leaves the vector. -/
  | overrun
  /-- The descriptors registered with the epoll instance of worker 0, 1, ... -/
  | shares (l : List (List Int))
  deriving DecidableEq, Repr

/-- Line 303-304: `if (worker_threads > params.num_conn) worker_threads = params.num_conn`. -/
def clamp_workers (num_conn worker_threads : Nat) : Nat :=
  if worker_threads > num_conn then num_conn else worker_threads

/-- Position of `end_iter` for worker `i` (lines 317-319). -/
def share_end (num_conn worker_threads step i : Nat) : Nat :=
  if i = worker_threads - 1 then num_conn else step * (i + 1)

/-- The descriptors between `begin_iter` and `end_iter` of worker `i`. -/
def share_of (sockets : List Int) (worker_threads step i : Nat) : List Int :=
  (sockets.drop (step * i)).take (share_end sockets.length worker_threads step i - step * i)

/-- The loop `for (i = 0; i < worker_threads; ++i)` from `i` on, with `todo`
iterations left. -/
def partition_from (sockets : List Int) (worker_threads step : Nat) : Nat → Nat → Partition
  | 0, _ => .shares []
  | todo + 1, i =>
    let begin_pos := step * i
    let end_pos := share_end sockets.length worker_threads step i
    if begin_pos = end_pos then .issue
    else if end_pos < begin_pos ∨ sockets.length < end_pos then .overrun
    else
      match partition_from sockets worker_threads step todo (i + 1) with
      | .shares l => .shares (share_of sockets worker_threads step i :: l)
      | other => other

/-- Lines 303-333 of `run_test`. -/
def run_test_partition (sockets : List Int) (worker_threads : Nat) : Partition :=
  let worker_threads := clamp_workers sockets.length worker_threads
  if worker_threads = 0 then .div_by_zero
  else partition_from sockets worker_threads (sockets.length / worker_threads) worker_threads 0

/-! ## `wait_for_conn`, `run_test_th` and the setup of `run_test` (`src/client.cpp`) -/

/-- What the system returns for one iteration of the accept loop. -/
structure AcceptCalls where
  /-- Result of `accept`. -/
  client_sock : Int
  /-- Result of `fcntl(client_sock, F_GETFL, 0)`. -/
  getfl : Int
  /-- Result of `fcntl(client_sock, F_SETFL, flags | O_NONBLOCK)`. -/
  setfl : Int

/-- What the system returns to the calls of `wait_for_conn`. -/
structure ListenCalls where
  /-- Result of `socket`. -/
  socket : Int
  /-- Result of `setsockopt`. -/
  setsockopt : Int
  /-- Result of `bind`. -/
  bind : Int
  /-- Result of `listen`. -/
  listen : Int
  /-- Results for the `i`-th iteration of the accept loop. -/
  accepts : Nat → AcceptCalls

/-- What `wait_for_conn` and its callers do that is visible from outside. -/
inductive Action where
  | ready_for_connect
  | accept (client_sock : Int)
  | on_sock_cb (client_sock : Int)
  | preparation_done
  | test_done
  deriving DecidableEq, Repr

/-- The loop `for (i = 0; i < sock_count; ++i)` of `wait_for_conn` from
iteration `i` on, with `todo` iterations left: the returned flag, `sockets` and
the actions so far. -/
def accept_loop (os : ListenCalls) (has_cb async : Bool) :
    Nat → Nat → List Int → List Action → Bool × List Int × List Action
  | 0, _, sockets, acts => (true, sockets, acts)
  | todo + 1, i, sockets, acts =>
    let a := os.accepts i
    let acts := acts ++ [Action.accept a.client_sock]
    if a.client_sock < 0 then (false, sockets, acts)
    else if async && decide (a.getfl < 0) then (false, sockets, acts)
    else if async && decide (a.setfl < 0) then (false, sockets, acts)
    else
      accept_loop os has_cb async todo (i + 1) (sockets ++ [a.client_sock])
        (if has_cb then acts ++ [Action.on_sock_cb a.client_sock] else acts)

/-- The function `wait_for_conn`: the returned `bool`, the vector `sockets` (empty at the
call) and the actions. `has_ready` and `has_cb` tell whether
`ready_for_connect` and `on_sock_cb` are non-null. On a failed `bind` the
function executes `return 1`, which a `bool` function returns as `true`. -/
def wait_for_conn (sock_count : Nat) (has_ready has_cb async : Bool) (os : ListenCalls) :
    Bool × List Int × List Action :=
  if os.socket = -1 then (false, [], [])
  else if 0 > os.bind then (true, [], [])
  else
    accept_loop os has_cb async sock_count 0 []
      (if has_ready then [Action.ready_for_connect] else [])

/-- The function `run_test_th`: the returned code and the actions (the threads started by
the per-connection callback appear as `on_sock_cb`); all three callbacks are
taken to be non-null. -/
def run_test_th (th_count : Nat) (os : ListenCalls) : Int × List Action :=
  match wait_for_conn th_count true true false os with
  | (false, _, acts) => (1, acts)
  | (true, _, acts) => (0, acts ++ [Action.preparation_done, Action.test_done])

/-- The loop `for (int sockfd : sockets.fds) if (not selector.add_fd(sockfd)) return 1;`
of `run_test`: `none` is the `return 1`. -/
def add_sockets : List Int → PollRSelector → Option PollRSelector
  | [], s => some s
  | sockfd :: rest, s =>
    match s.add_fd sockfd with
    | (false, _) => none
    | (true, s1) => add_sockets rest s1

/-- Lines 243-256 of `run_test`, up to the `while (fd_left > 0)` loop, with a
`PollRSelector`: `.inl code` is an early `return code`, `.inr (s, acts)` is the
selector with which the loop is entered. -/
def run_test_setup (selector : PollRSelector) (th_count : Nat) (os : ListenCalls) :
    Int ⊕ (PollRSelector × List Action) :=
  match wait_for_conn th_count true false false os with
  | (false, _, _) => .inl 1
  | (true, sockets, acts) =>
    match add_sockets sockets selector with
    | none => .inl 1
    | some s => .inr (s, acts ++ [Action.preparation_done])

/-- The system rejects `bind`; everything else would succeed. -/
def os_bind_rejected : ListenCalls :=
  { socket := 3, setsockopt := 0, bind := -1, listen := 0
    accepts := fun i => ⟨4 + i, 0, 0⟩ }

/-- The system rejects `listen`, and then every `accept`. -/
def os_listen_rejected : ListenCalls :=
  { socket := 3, setsockopt := 0, bind := 0, listen := -1
    accepts := fun _ => ⟨-1, 0, 0⟩ }

/-! ## The divisor of `run_test` (`src/server.cpp`, lines 303-306)

`params.num_conn` and `worker_threads` are `int`; `process_client` passes
`worker_threads = 1`. -/

/-- Lines 303-304: `worker_threads` after
`if (worker_threads > params.num_conn) worker_threads = params.num_conn;`. -/
def run_test_divisor (num_conn worker_threads : Int) : Int :=
  if worker_threads > num_conn then num_conn else worker_threads

/-- Line 306: `int step = params.num_conn / worker_threads;` (`none` is a
division by zero). -/
def run_test_step (num_conn worker_threads : Int) : Option Int :=
  if run_test_divisor num_conn worker_threads = 0 then none
  else some (Int.tdiv num_conn (run_test_divisor num_conn worker_threads))

/-- The field of a request that holds the integer `v`: one space, `-` for a
negative value, and the decimal digits of its magnitude. -/
def int_field (v : Int) : IntField :=
  ⟨[' '], if v < 0 then ['-'] else [], Nat.toDigits 10 v.natAbs⟩

/-! # Lemmas and theorems -/

/-! ## Accounting of `worker_thread` -/

theorem U64_pos : 0 < U64 := by
  unfold U64
  exact Nat.pos_pow_of_pos 64 (by decide)

theorem bucket_sum_eq_sum (lat : Fin 30 → Nat) : bucket_sum lat = ∑ i, lat i := by
  unfold bucket_sum
  exact List.sum_ofFn

theorem sum_update_succ_mod {n : Nat} (lat : Fin n → Nat) (i : Fin n) (M : Nat) :
    (∑ j, Function.update lat i ((lat i + 1) % M) j) % M = (∑ j, lat j + 1) % M := by
  rw [Finset.sum_update_of_mem (Finset.mem_univ i),
    ← Finset.add_sum_erase Finset.univ lat (Finset.mem_univ i),
    Finset.sdiff_singleton_eq_erase]
  generalize ∑ x ∈ Finset.univ.erase i, lat x = r
  have h : Nat.ModEq M ((lat i + 1) % M + r) (lat i + 1 + r) :=
    (Nat.mod_modEq _ _).add_right r
  have e : lat i + r + 1 = lat i + 1 + r := by omega
  rw [e]
  exact h

theorem array_incr_sum {lat lat1 : Fin 30 → Nat} {i : Nat}
    (h : array_incr lat i = some lat1) :
    bucket_sum lat1 % U64 = (bucket_sum lat + 1) % U64 := by
  unfold array_incr at h
  by_cases hi : i < 30
  · rw [dif_pos hi] at h
    rw [← Option.some.inj h, bucket_sum_eq_sum, bucket_sum_eq_sum]
    exact sum_update_succ_mod lat ⟨i, hi⟩ U64
  · rw [dif_neg hi] at h
    cases h

theorem bucket_step_sum {lat lat1 : Fin 30 → Nat} {t : Nat}
    (h : bucket_step lat t = some lat1) :
    bucket_sum lat1 % U64 = (bucket_sum lat + 1) % U64 := by
  unfold bucket_step at h
  split at h
  · cases h
  · exact array_incr_sum h

theorem map_assign_keys (m : List (Int × Nat)) (k : Int) (v : Nat) :
    (map_assign m k v).map Prod.fst = m.map Prod.fst := by
  induction m with
  | nil => rfl
  | cons p m ih =>
    simp only [map_assign, List.map_cons] at ih ⊢
    rw [ih]
    by_cases hp : p.1 = k <;> simp [hp]

theorem map_assign_length (m : List (Int × Nat)) (k : Int) (v : Nat) :
    (map_assign m k v).length = m.length := by
  simp [map_assign]

theorem lookup_none_not_mem {m : List (Int × Nat)} {k : Int}
    (h : m.lookup k = none) : k ∉ m.map Prod.fst := by
  induction m with
  | nil => simp
  | cons p m ih =>
    obtain ⟨a, b⟩ := p
    by_cases hk : k = a
    · subst hk
      simp [List.lookup] at h
    · have hb : (k == a) = false := by simpa using hk
      simp only [List.lookup, hb] at h
      simp only [List.map_cons, List.mem_cons, not_or]
      exact ⟨hk, ih h⟩

theorem after_bucketing_acct (message_len : Int) (e : Event) (w : Worker) :
    (after_bucketing message_len e w).2.acct = w.acct ∧
    (after_bucketing message_len e w).2.keys = w.keys ∧
    (after_bucketing message_len e w).2.result = w.result := by
  unfold after_bucketing
  split
  · exact ⟨rfl, rfl, rfl⟩
  · simp [Worker.acct, Worker.keys, map_assign_keys, map_assign_length]

/-- An iteration that gets past the stop-flag test adds one to buckets plus
connections (modulo `2^64`), keeps `mcount`, and keeps the keys distinct. -/
theorem handle_event_acct {message_len : Int} {e : Event} {w w1 : Worker} {b : Bool}
    (h : handle_event message_len e w = some (b, w1)) (hnd : w.keys.Nodup) :
    w1.result.mcount = w.result.mcount ∧ w1.keys.Nodup ∧
    (if e.done then b = false ∧ w1 = w
     else w1.acct % U64 = (w.acct + 1) % U64) := by
  unfold handle_event at h
  by_cases hd : e.done = true
  · simp only [hd, if_true, Option.some.injEq, Prod.mk.injEq] at h
    obtain ⟨hb, hw⟩ := h
    subst hw
    simp [hd, hnd, hb.symm]
  · simp only [hd] at h ⊢
    simp only [Bool.false_eq_true, if_false] at h ⊢
    split at h
    · rename_i hl
      injection h with h
      obtain ⟨ha, hk, hr⟩ := after_bucketing_acct message_len e
        { w with last_time_for_socket := (e.fd, 0) :: w.last_time_for_socket }
      rw [h] at ha hk hr
      refine ⟨by rw [hr], ?_, ?_⟩
      · rw [hk]
        simp only [Worker.keys, List.map_cons, List.nodup_cons]
        exact ⟨lookup_none_not_mem hl, hnd⟩
      · rw [ha]
        simp only [Worker.acct, List.length_cons]
        rw [Nat.add_assoc]
    · split at h
      · cases h
      · rename_i lat hb
        injection h with h
        obtain ⟨ha, hk, hr⟩ := after_bucketing_acct message_len e
          { w with result := { w.result with lat_ns_log2 := lat } }
        rw [h] at ha hk hr
        have hs := bucket_step_sum hb
        refine ⟨by rw [hr], by rw [hk]; exact hnd, ?_⟩
        rw [ha]
        simp only [Worker.acct]
        rw [Nat.add_right_comm, Nat.add_mod, hs, ← Nat.add_mod, Nat.add_right_comm]

/-- A batch handled to its end adds its length to buckets plus connections. -/
theorem handle_batch_acct {message_len : Int} {evs : List Event} {w w1 : Worker}
    (h : handle_batch message_len evs w = some (true, w1)) (hnd : w.keys.Nodup) :
    w1.result.mcount = w.result.mcount ∧ w1.keys.Nodup ∧
    w1.acct % U64 = (w.acct + evs.length) % U64 := by
  induction evs generalizing w with
  | nil =>
    simp only [handle_batch, Option.some.injEq, Prod.mk.injEq, true_and] at h
    subst h
    exact ⟨rfl, hnd, by rw [List.length_nil, Nat.add_zero]⟩
  | cons e es ih =>
    unfold handle_batch at h
    split at h
    · cases h
    · cases h
    · rename_i w2 he
      obtain ⟨hm, hk, ha⟩ := handle_event_acct he hnd
      obtain ⟨hm2, hk2, ha2⟩ := ih h hk
      refine ⟨hm2.trans hm, hk2, ?_⟩
      by_cases hd : e.done = true
      · rw [if_pos hd] at ha
        cases ha.1
      · rw [if_neg hd] at ha
        rw [ha2, Nat.add_mod, ha, ← Nat.add_mod, List.length_cons,
          Nat.add_assoc, Nat.add_comm 1]

theorem worker_loop_balanced {message_len : Int} {c : Nat} {trace : List (List EpollCall)}
    {w w1 : Worker} (h : worker_loop message_len trace w = some (Exit.at_wait, w1))
    (hw : w.balanced c) : w1.balanced c := by
  induction trace generalizing w with
  | nil =>
    simp only [worker_loop, Option.some.injEq, Prod.mk.injEq, true_and] at h
    exact h ▸ hw
  | cons calls rest ih =>
    unfold worker_loop at h
    split at h
    · simp only [Option.some.injEq, Prod.mk.injEq, true_and] at h
      exact h ▸ hw
    · rename_i evs _
      split at h
      · cases h
      · simp at h
      · rename_i w2 hb
        obtain ⟨hm, hk, ha⟩ := handle_batch_acct hb hw.1
        apply ih h
        refine ⟨hk, Nat.mod_lt _ U64_pos, ?_⟩
        show w2.acct % U64 = ((w2.result.mcount + evs.length) % U64 + c) % U64
        rw [ha, Nat.add_mod, hw.2.2, ← Nat.add_mod, hm, Nat.mod_add_mod,
          Nat.add_right_comm]

/-- C1 (the code at the failing input): for an elapsed time of `2^30` ns,
`log2_64` returns 30, the clamp `tout_l2 > 30` does not fire, and the bucketing
step increments `lat_ns_log2[30]`, which is not one of the 30 counters; the
claimed bucket 29 is not incremented. -/
theorem bucket_step_two_pow_30_out_of_bounds :
    log2_64 (2 ^ 30) = some 30 ∧ bucket_index 30 = 30 ∧
    ∀ lat : Fin 30 → Nat, bucket_step lat (2 ^ 30) = none := by
  have h : log2_64 (2 ^ 30) = some 30 := by decide
  refine ⟨h, by decide, fun lat => ?_⟩
  unfold bucket_step
  rw [h]
  rfl

/-- C2 (as stated, refuted): on `trace_stop_in_batch` the worker returns inside
the second batch with one bucketed round trip, one connection, and `mcount = 1`,
so the bucket sum 1 differs from `mcount` minus connections, 0. -/
theorem worker_thread_return_in_batch_unbalanced :
    ∃ w : Worker,
      worker_thread 64 TestResult.zero trace_stop_in_batch = some (Exit.in_batch, w) ∧
      (bucket_sum w.result.lat_ns_log2 : Int)
        ≠ (w.result.mcount : Int) - (w.last_time_for_socket.length : Int) := by
  have h : (worker_thread 64 TestResult.zero trace_stop_in_batch).map Worker.summary
      = some (Exit.in_batch, 1, 1, 1) := by decide
  cases hw : worker_thread 64 TestResult.zero trace_stop_in_batch with
  | none => rw [hw] at h; cases h
  | some r =>
    rw [hw] at h
    obtain ⟨e, w⟩ := r
    simp only [Option.map_some', Worker.summary, Option.some.injEq, Prod.mk.injEq] at h
    obtain ⟨he, hm, hb, hl⟩ := h
    subst he
    refine ⟨w, rfl, ?_⟩
    rw [hm, hb, hl]
    decide

/-- C2 (amended): started on a zeroed histogram, a worker that returns at the
wait (`epoll_wait_ex` returned false) without having written outside the
histogram has pairwise distinct connections in `last_time_for_socket`, and the
sum of its 30 buckets plus the number of those connections equals `mcount`
modulo `2^64`; when that sum is below `2^64` the bucket sum is exactly `mcount`
minus the number of connections. -/
theorem worker_thread_accounting (message_len : Int) (result : TestResult)
    (trace : List (List EpollCall)) (w : Worker)
    (hz : ∀ i, result.lat_ns_log2 i = 0)
    (h : worker_thread message_len result trace = some (Exit.at_wait, w)) :
    (w.last_time_for_socket.map Prod.fst).Nodup ∧
    (bucket_sum w.result.lat_ns_log2 + w.last_time_for_socket.length) % U64
      = w.result.mcount ∧
    (bucket_sum w.result.lat_ns_log2 + w.last_time_for_socket.length < U64 →
      (bucket_sum w.result.lat_ns_log2 : Int)
        = (w.result.mcount : Int) - (w.last_time_for_socket.length : Int)) := by
  have h0 : Worker.balanced 0 ⟨{ result with mcount := 0 }, []⟩ := by
    refine ⟨List.nodup_nil, U64_pos, ?_⟩
    have hs : bucket_sum result.lat_ns_log2 = 0 := by
      rw [bucket_sum_eq_sum]
      exact Finset.sum_eq_zero fun i _ => hz i
    simp [Worker.acct, hs]
  obtain ⟨hk, hm, ha⟩ := worker_loop_balanced h h0
  have hmod : (bucket_sum w.result.lat_ns_log2 + w.last_time_for_socket.length) % U64
      = w.result.mcount := by
    have := ha
    rw [Nat.add_zero, Nat.mod_eq_of_lt hm] at this
    exact this
  refine ⟨hk, hmod, fun hlt => ?_⟩
  rw [Nat.mod_eq_of_lt hlt] at hmod
  omega

/-- Witness for C2 (amended): two complete batches on one connection. -/
theorem worker_thread_accounting_witness :
    ∃ w : Worker,
      worker_thread 64 TestResult.zero trace_two_batches = some (Exit.at_wait, w) ∧
      (w.last_time_for_socket.map Prod.fst).Nodup ∧
      (bucket_sum w.result.lat_ns_log2 + w.last_time_for_socket.length) % U64
        = w.result.mcount ∧
      w.result.mcount = 2 := by
  have h : (worker_thread 64 TestResult.zero trace_two_batches).map Worker.summary
      = some (Exit.at_wait, 2, 1, 1) := by decide
  cases hw : worker_thread 64 TestResult.zero trace_two_batches with
  | none => rw [hw] at h; cases h
  | some r =>
    rw [hw] at h
    obtain ⟨e, w⟩ := r
    simp only [Option.map_some', Worker.summary, Option.some.injEq, Prod.mk.injEq] at h
    obtain ⟨he, hm, -, -⟩ := h
    subst he
    have t := worker_thread_accounting 64 TestResult.zero trace_two_batches w (fun _ => rfl) hw
    exact ⟨w, rfl, t.1, t.2.1, hm⟩

/-! ## Merge of the per-worker results -/

theorem foldl_update_apply {n : Nat} (l : List (Fin n)) (hl : l.Nodup)
    (res : Fin n → Nat) (step : Nat → Fin n → Nat) (i : Fin n) :
    (l.foldl (fun acc pos => Function.update acc pos (step (acc pos) pos)) res) i
      = if i ∈ l then step (res i) i else res i := by
  induction l generalizing res with
  | nil => simp
  | cons a l ih =>
    rw [List.foldl_cons, ih (List.nodup_cons.mp hl).2]
    have ha : a ∉ l := (List.nodup_cons.mp hl).1
    by_cases hia : i = a
    · subst hia
      simp [ha]
    · by_cases hil : i ∈ l
      · simp [hia, hil, Function.update_noteq hia]
      · simp [hia, hil, Function.update_noteq hia]

theorem merge_buckets_apply (res ires : Fin 30 → Nat) (i : Fin 30) :
    merge_buckets res ires i = (res i + ires i) % U64 := by
  unfold merge_buckets
  rw [foldl_update_apply (List.finRange 30) (List.nodup_finRange 30) res
    (fun x pos => (x + ires pos) % U64) i]
  simp

theorem TestResult.ext_fields {a b : TestResult} (hm : a.mcount = b.mcount)
    (hl : ∀ i, a.lat_ns_log2 i = b.lat_ns_log2 i) : a = b := by
  cases a
  cases b
  simp only [TestResult.mk.injEq]
  exact ⟨hm, funext hl⟩

/-- Running the merge loop from an accumulator whose fields are below `2^64`. -/
theorem foldl_merge_one (l : List TestResult) (acc : TestResult)
    (hm : acc.mcount < U64) (hl : ∀ i, acc.lat_ns_log2 i < U64) :
    (l.foldl merge_one acc).mcount
      = (acc.mcount + (l.map TestResult.mcount).sum) % U64 ∧
    ∀ i, (l.foldl merge_one acc).lat_ns_log2 i
      = (acc.lat_ns_log2 i + (l.map fun r => r.lat_ns_log2 i).sum) % U64 := by
  induction l generalizing acc with
  | nil =>
    refine ⟨?_, fun i => ?_⟩
    · rw [List.foldl_nil, List.map_nil, List.sum_nil, Nat.add_zero, Nat.mod_eq_of_lt hm]
    · rw [List.foldl_nil, List.map_nil, List.sum_nil, Nat.add_zero, Nat.mod_eq_of_lt (hl i)]
  | cons r l ih =>
    have h1 : (merge_one acc r).mcount < U64 := Nat.mod_lt _ U64_pos
    have h2 : ∀ i, (merge_one acc r).lat_ns_log2 i < U64 := fun i => by
      show merge_buckets acc.lat_ns_log2 r.lat_ns_log2 i < U64
      rw [merge_buckets_apply]
      exact Nat.mod_lt _ U64_pos
    obtain ⟨e1, e2⟩ := ih (merge_one acc r) h1 h2
    refine ⟨?_, fun i => ?_⟩
    · rw [List.foldl_cons, e1, List.map_cons, List.sum_cons]
      show ((acc.mcount + r.mcount) % U64 + _) % U64 = _
      rw [Nat.mod_add_mod, Nat.add_assoc]
    · rw [List.foldl_cons, e2 i, List.map_cons, List.sum_cons]
      show (merge_buckets acc.lat_ns_log2 r.lat_ns_log2 i + _) % U64 = _
      rw [merge_buckets_apply, Nat.mod_add_mod, Nat.add_assoc]

theorem merge_results_fields (l : List TestResult) :
    (merge_results l).mcount = (l.map TestResult.mcount).sum % U64 ∧
    ∀ i, (merge_results l).lat_ns_log2 i = (l.map fun r => r.lat_ns_log2 i).sum % U64 := by
  obtain ⟨e1, e2⟩ := foldl_merge_one l { mcount := 0, lat_ns_log2 := fun _ => 0 }
    U64_pos (fun _ => U64_pos)
  refine ⟨?_, fun i => ?_⟩
  · rw [merge_results, e1, Nat.zero_add]
  · rw [merge_results, e2 i, Nat.zero_add]

/-- C3: the merge loop of `run_test` gives the same result on every permutation
of the per-worker results; its `mcount` and each of its 30 buckets is the sum
of that field over all workers modulo `2^64`; merging no result gives `mcount`
0 and all buckets 0. -/
theorem merge_results_perm (l1 l2 : List TestResult) (h : l1.Perm l2) :
    merge_results l1 = merge_results l2 ∧
    (merge_results l1).mcount = (l1.map TestResult.mcount).sum % U64 ∧
    (∀ i, (merge_results l1).lat_ns_log2 i = (l1.map fun r => r.lat_ns_log2 i).sum % U64) ∧
    (merge_results []).mcount = 0 ∧ ∀ i, (merge_results []).lat_ns_log2 i = 0 := by
  obtain ⟨a1, a2⟩ := merge_results_fields l1
  obtain ⟨b1, b2⟩ := merge_results_fields l2
  refine ⟨?_, a1, a2, rfl, fun _ => rfl⟩
  apply TestResult.ext_fields
  · rw [a1, b1, (h.map TestResult.mcount).sum_eq]
  · intro i
    rw [a2 i, b2 i, (h.map fun r => r.lat_ns_log2 i).sum_eq]

/-- Witness for C3: three results merged in two orders. -/
theorem merge_results_perm_witness :
    [sample_result 1, sample_result 2, sample_result 3].Perm
      [sample_result 3, sample_result 1, sample_result 2] ∧
    merge_results [sample_result 1, sample_result 2, sample_result 3]
      = merge_results [sample_result 3, sample_result 1, sample_result 2] ∧
    (merge_results [sample_result 1, sample_result 2, sample_result 3]).mcount = 69 ∧
    (merge_results [sample_result 1, sample_result 2, sample_result 3]).lat_ns_log2 29
      = 177 := by
  have hp : [sample_result 1, sample_result 2, sample_result 3].Perm
      [sample_result 3, sample_result 1, sample_result 2] :=
    @List.perm_append_comm _ [sample_result 1, sample_result 2] [sample_result 3]
  have t := merge_results_perm _ _ hp
  exact ⟨hp, t.1, by decide, by decide⟩

/-! ## The response format -/

theorem digit_value_digitChar : ∀ d, d < 10 → digit_value (Nat.digitChar d) = some d := by
  decide

theorem digitChar_ne_space : ∀ d, d < 10 → Nat.digitChar d ≠ ' ' := by
  decide

theorem toDigitsCore_append (f n : Nat) (ds : List Char) :
    Nat.toDigitsCore 10 f n ds = Nat.toDigitsCore 10 f n [] ++ ds := by
  induction f generalizing n ds with
  | zero => rfl
  | succ f ih =>
    simp only [Nat.toDigitsCore]
    split
    · rfl
    · rw [ih (n / 10) (Nat.digitChar (n % 10) :: ds), ih (n / 10) [Nat.digitChar (n % 10)]]
      simp

/-- The digits produced with enough fuel: non-empty, free of spaces, and read
back as the number. -/
theorem toDigitsCore_spec (f n : Nat) (h : n < f) :
    Nat.toDigitsCore 10 f n [] ≠ [] ∧
    (∀ c ∈ Nat.toDigitsCore 10 f n [], c ≠ ' ') ∧
    (Nat.toDigitsCore 10 f n []).foldlM parse_step 0 = some n := by
  induction f generalizing n with
  | zero => omega
  | succ f ih =>
    have hd : n % 10 < 10 := Nat.mod_lt _ (by decide)
    simp only [Nat.toDigitsCore]
    split
    · rename_i h0
      have hn : n % 10 = n := by omega
      refine ⟨by simp, ?_, ?_⟩
      · intro c hc
        rw [List.mem_singleton] at hc
        rw [hc]
        exact digitChar_ne_space _ hd
      · have hv := digit_value_digitChar _ hd
        have hv1 := hv
        rw [hn] at hv1
        simp [parse_step, hv, hv1, hn]
    · rename_i h0
      have hlt : n / 10 < f := by omega
      obtain ⟨i1, i2, i3⟩ := ih (n / 10) hlt
      rw [toDigitsCore_append]
      refine ⟨by simp, ?_, ?_⟩
      · intro c hc
        rw [List.mem_append, List.mem_singleton] at hc
        rcases hc with hc | hc
        · exact i2 c hc
        · rw [hc]
          exact digitChar_ne_space _ hd
      · rw [List.foldlM_append, i3]
        simp only [Option.some_bind, List.foldlM_cons, List.foldlM_nil, parse_step,
          digit_value_digitChar _ hd, Option.map_some', Option.bind_eq_bind, Option.pure_def]
        congr 1
        omega

theorem put_unsigned_ne_nil (n : Nat) : put_unsigned n ≠ [] :=
  (toDigitsCore_spec (n + 1) n (Nat.lt_succ_self n)).1

theorem put_unsigned_no_space (n : Nat) : ' ' ∉ put_unsigned n := fun h =>
  (toDigitsCore_spec (n + 1) n (Nat.lt_succ_self n)).2.1 ' ' h rfl

theorem parse_put_unsigned (n : Nat) : parse_unsigned (put_unsigned n) = some n := by
  have h := toDigitsCore_spec (n + 1) n (Nat.lt_succ_self n)
  unfold parse_unsigned
  split
  · rename_i e
    exact absurd e (put_unsigned_ne_nil n)
  · exact h.2.2

theorem foldl_put_eq_intercalate (l : List Nat) (a : Nat) (pre : List Char) :
    l.foldl (fun serialized val => serialized ++ ' ' :: put_unsigned val) (pre ++ put_unsigned a)
      = pre ++ [' '].intercalate ((a :: l).map put_unsigned) := by
  induction l generalizing a pre with
  | nil => simp [List.intercalate]
  | cons b l ih =>
    rw [List.foldl_cons]
    have e : pre ++ put_unsigned a ++ ' ' :: put_unsigned b
        = (pre ++ put_unsigned a ++ [' ']) ++ put_unsigned b := by simp
    rw [e, ih b (pre ++ put_unsigned a ++ [' '])]
    simp [List.intercalate, List.intersperse]

/-- C5: `serialize_to_str r` is the decimal renderings of `mcount` and of
`lat_ns_log2[0] .. lat_ns_log2[29]`, in that order, joined by single spaces
(nothing before the first or after the last); splitting it on spaces gives
exactly those 31 tokens, and they read back as `mcount, bucket_0 .. bucket_29`. -/
theorem serialize_to_str_format (r : TestResult) :
    serialize_to_str r = [' '].intercalate (r.fields.map put_unsigned) ∧
    (serialize_to_str r).splitOn ' ' = r.fields.map put_unsigned ∧
    ((serialize_to_str r).splitOn ' ').length = 31 ∧
    ((serialize_to_str r).splitOn ' ').map parse_unsigned = r.fields.map some ∧
    r.fields = r.mcount :: (List.finRange 30).map r.lat_ns_log2 := by
  have h1 : serialize_to_str r = [' '].intercalate (r.fields.map put_unsigned) := by
    have := foldl_put_eq_intercalate (List.ofFn r.lat_ns_log2) r.mcount []
    simpa [serialize_to_str, TestResult.fields] using this
  have h2 : (serialize_to_str r).splitOn ' ' = r.fields.map put_unsigned := by
    rw [h1]
    apply List.splitOn_intercalate
    · intro l hl
      rw [List.mem_map] at hl
      obtain ⟨n, -, rfl⟩ := hl
      exact put_unsigned_no_space n
    · simp [TestResult.fields]
  refine ⟨h1, h2, ?_, ?_, ?_⟩
  · rw [h2]
    simp [TestResult.fields]
  · rw [h2, List.map_map]
    apply List.map_congr_left
    intro n _
    exact parse_put_unsigned n
  · rw [TestResult.fields, List.ofFn_eq_map]

/-! ## The control request -/

theorem takeWhile_append_stop (p : Char → Bool) (t r : List Char)
    (ht : ∀ c ∈ t, p c = true) (hr : stops_at p r) :
    (t ++ r).takeWhile p = t ∧ (t ++ r).dropWhile p = r := by
  induction t with
  | nil =>
    cases r with
    | nil => exact ⟨rfl, rfl⟩
    | cons c r =>
      have hc := hr c r rfl
      simp [List.takeWhile, List.dropWhile, hc]
  | cons a t ih =>
    have ha : p a = true := ht a (List.mem_cons_self a t)
    obtain ⟨i1, i2⟩ := ih fun c hc => ht c (List.mem_cons_of_mem a hc)
    rw [List.cons_append, List.takeWhile_cons, List.dropWhile_cons, if_pos ha, if_pos ha, i1]
    exact ⟨rfl, i2⟩

theorem skip_space_append (ws r : List Char) (hws : ∀ c ∈ ws, is_space c = true)
    (hr : stops_at is_space r) : skip_space (ws ++ r) = r :=
  (takeWhile_append_stop is_space ws r hws hr).2

theorem skip_space_stop (r : List Char) (hr : stops_at is_space r) : skip_space r = r :=
  skip_space_append [] r (fun _ h => absurd h (List.not_mem_nil _)) hr

theorem skip_space_all (ws : List Char) (hws : ∀ c ∈ ws, is_space c = true) :
    skip_space ws = [] := by
  have := skip_space_append ws [] hws (fun _ _ h => by cases h)
  rwa [List.append_nil] at this

theorem isDigit_not_space (c : Char) (h : c.isDigit = true) :
    is_space c = false ∧ c ≠ '-' ∧ c ≠ '+' := by
  refine ⟨?_, ?_, ?_⟩
  · simp only [is_space, Bool.or_eq_false_iff, decide_eq_false_iff_not]
    refine ⟨⟨⟨⟨⟨?_, ?_⟩, ?_⟩, ?_⟩, ?_⟩, ?_⟩ <;>
    · rintro rfl
      exact absurd h (by decide)
  · rintro rfl
    exact absurd h (by decide)
  · rintro rfl
    exact absurd h (by decide)

theorem scan_s_token (tok r : List Char) (h0 : tok ≠ [])
    (htok : ∀ c ∈ tok, is_space c = false) (hr : stops_at (fun c => !is_space c) r) :
    scan_s (tok ++ r) = some (tok, r) := by
  have hs : skip_space (tok ++ r) = tok ++ r := by
    apply skip_space_stop
    intro c t e
    cases tok with
    | nil => exact absurd rfl h0
    | cons a tok =>
      rw [List.cons_append] at e
      injection e with e1 _
      exact e1 ▸ htok a (List.mem_cons_self a tok)
  obtain ⟨e1, e2⟩ := takeWhile_append_stop (fun c => !is_space c) tok r
    (fun c hc => by simp [htok c hc]) hr
  unfold scan_s
  simp only [hs, e1, e2, if_neg h0]

theorem scan_d_field (f : IntField) (r : List Char) (hf : f.wf)
    (hr : stops_at Char.isDigit r) :
    scan_d (f.text ++ r) = some (f.value, r) := by
  obtain ⟨-, hws, hsign, hd0, hd⟩ := hf
  obtain ⟨e1, e2⟩ := takeWhile_append_stop Char.isDigit f.digits r hd hr
  cases hds : f.digits with
  | nil => exact absurd hds hd0
  | cons d ds =>
    have hdd : d.isDigit = true := hd d (hds ▸ List.mem_cons_self d ds)
    obtain ⟨n1, n2, n3⟩ := isDigit_not_space d hdd
    rw [hds] at e1 e2
    have hs : skip_space (f.text ++ r) = f.sign ++ (d :: ds ++ r) := by
      unfold IntField.text
      rw [hds, List.append_assoc, List.append_assoc]
      apply skip_space_append _ _ hws
      intro c t e
      rcases hsign with h | h | h <;> rw [h] at e <;> injection e with e1 _ <;> subst e1
      · exact n1
      · decide
      · decide
    unfold scan_d
    rw [hs]
    unfold IntField.value
    rw [hds]
    rw [List.cons_append] at e1 e2
    rcases hsign with h | h | h
    · rw [h]
      simp [n2, n3, e1, e2, hdd]
    · rw [h]
      simp [e1, e2, hdd]
    · rw [h]
      simp [e1, e2, hdd]

theorem skip_space_idem (x : List Char) : skip_space (skip_space x) = skip_space x := by
  apply skip_space_stop
  intro c t e
  unfold skip_space at e
  have := List.head_dropWhile_not is_space x
  induction x with
  | nil => cases e
  | cons a x ih =>
    rw [List.dropWhile_cons] at e
    by_cases ha : is_space a = true
    · rw [if_pos ha] at e
      exact ih e (List.head_dropWhile_not is_space x)
    · rw [if_neg ha] at e
      injection e with e1 _
      rw [← e1]
      simpa using ha

theorem scan_d_skip_space (x : List Char) : scan_d (skip_space x) = scan_d x := by
  unfold scan_d
  rw [skip_space_idem]

theorem stops_isDigit_of_space (r : List Char) (h : ∀ c t, r = c :: t → is_space c = true) :
    stops_at Char.isDigit r := by
  intro c t e
  have hc := h c t e
  by_contra hd
  have := (isDigit_not_space c (by simpa using hd)).1
  rw [hc] at this
  cases this

theorem field_head_space (f : IntField) (hf : f.wf) (tail : List Char) :
    ∀ c t, f.text ++ tail = c :: t → is_space c = true := by
  intro c t e
  obtain ⟨hw0, hws, -⟩ := hf
  cases hw : f.ws with
  | nil => exact absurd hw hw0
  | cons a ws =>
    simp only [IntField.text, hw, List.cons_append] at e
    injection e with e1 _
    exact e1 ▸ hws a (hw ▸ List.mem_cons_self a ws)

theorem scan_ints_succ (k : Nat) (input : List Char) :
    scan_ints (k + 1) input =
      match scan_d (skip_space input) with
      | none => []
      | some (v, rest) => v :: scan_ints k rest := rfl

theorem scan_ints_fields (fs : List IntField) (hfs : ∀ f ∈ fs, f.wf) (rest : List Char)
    (hrest : stops_at Char.isDigit rest) (k : Nat) :
    scan_ints (fs.length + k) ((fs.map IntField.text).flatten ++ rest)
      = fs.map IntField.value ++ scan_ints k rest := by
  induction fs with
  | nil => simp
  | cons f fs ih =>
    have hf := hfs f (List.mem_cons_self f fs)
    have hfs1 : ∀ g ∈ fs, g.wf := fun g hg => hfs g (List.mem_cons_of_mem f hg)
    have hstop : stops_at Char.isDigit ((fs.map IntField.text).flatten ++ rest) := by
      cases fs with
      | nil => simpa using hrest
      | cons g gs =>
        apply stops_isDigit_of_space
        rw [List.map_cons, List.flatten_cons, List.append_assoc]
        exact field_head_space g (hfs1 g (List.mem_cons_self g gs)) _
    have e : (f :: fs).length + k = (fs.length + k) + 1 := by
      rw [List.length_cons]
      omega
    rw [e, List.map_cons, List.flatten_cons, List.append_assoc, scan_ints_succ,
      scan_d_skip_space, scan_d_field f _ hf hstop]
    simp only [List.map_cons, List.cons_append]
    rw [ih hfs1]

theorem scan_ints_space (k : Nat) (rest : List Char) (hrest : ∀ c ∈ rest, is_space c = true) :
    scan_ints (k + 1) rest = [] := by
  rw [scan_ints_succ, skip_space_all rest hrest]
  rfl

theorem sscanf_request (tok : List Char) (fs : List IntField) (rest : List Char) (k : Nat)
    (h0 : tok ≠ []) (htok : ∀ c ∈ tok, is_space c = false) (hfs : ∀ f ∈ fs, f.wf)
    (hk : fs.length + k = 5) (hrest : stops_at Char.isDigit rest)
    (hsp : ∀ c t, (fs.map IntField.text).flatten ++ rest = c :: t → is_space c = true) :
    sscanf_s_5d (request_text tok fs rest)
      = (1 + ((fs.map IntField.value ++ scan_ints k rest).length : Int), tok,
          fs.map IntField.value ++ scan_ints k rest) := by
  unfold sscanf_s_5d request_text
  rw [scan_s_token tok _ h0 htok (fun c t e => by simp [hsp c t e])]
  simp only
  rw [← hk, scan_ints_fields fs hfs rest hrest k]

/-- C4 (as stated, refuted): a request with seven fields and a request with two
fields are both accepted, the second with the integers run together through
their signs. -/
theorem load_from_str_accepts_other_field_counts :
    (fields_of "127.0.0.1 9000 4 1 5 64 extra".toList).length = 7 ∧
    load_from_str "127.0.0.1 9000 4 1 5 64 extra".toList
      = .accepted ⟨9000, 4, 1, 5, 64, "127.0.0.1".toList⟩ ∧
    (fields_of "127.0.0.1 9000-4-1-5-64".toList).length = 2 ∧
    load_from_str "127.0.0.1 9000-4-1-5-64".toList
      = .accepted ⟨9000, -4, -1, -5, -64, "127.0.0.1".toList⟩ := by
  decide

/-- C4 (amended): for a request made of a token without white space followed by
well-formed decimal integer fields (white space, optional sign, digits) whose
values lie in the range of `int`:
with five such fields, at most 1025 characters, and a continuation that does
not start with a digit, `load_from_str` accepts and fills `TestParams` with the
token and the five values, whatever else follows; with fewer than five such
fields, at most 1024 characters, and only white space after them, it rejects.
It rejects every request of more than 1025 characters and every request of
white space only. -/
theorem load_from_str_fields (tok : List Char) (fs : List IntField) (rest : List Char)
    (h0 : tok ≠ []) (htok : ∀ c ∈ tok, is_space c = false) (hfs : ∀ f ∈ fs, f.wf)
    (_hrange : ∀ f ∈ fs, -2 ^ 31 ≤ f.value ∧ f.value < 2 ^ 31) :
    (fs.length = 5 → stops_at Char.isDigit rest →
      (request_text tok fs rest).length ≤ MAX_CLIENT_MESSAGE + 1 →
      load_from_str (request_text tok fs rest)
        = .accepted (params_of tok (fs.map IntField.value))) ∧
    (fs.length < 5 → (∀ c ∈ rest, is_space c = true) →
      (request_text tok fs rest).length ≤ MAX_CLIENT_MESSAGE →
      load_from_str (request_text tok fs rest) = .rejected) ∧
    (∀ data : List Char, MAX_CLIENT_MESSAGE + 1 < data.length →
      load_from_str data = .rejected) ∧
    (∀ data : List Char, (∀ c ∈ data, is_space c = true) →
      load_from_str data = .rejected) := by
  refine ⟨fun h5 hrest hlen => ?_, fun hlt hrest hlen => ?_, fun data hlen => ?_,
    fun data hws => ?_⟩
  · have hsp : ∀ c t, (fs.map IntField.text).flatten ++ rest = c :: t →
        is_space c = true := by
      cases fs with
      | nil => cases h5
      | cons f fs =>
        rw [List.map_cons, List.flatten_cons, List.append_assoc]
        exact field_head_space f (hfs f (List.mem_cons_self f fs)) _
    have hs := sscanf_request tok fs rest 0 h0 htok hfs (by omega) hrest hsp
    have hne : (fs.map IntField.text).flatten ++ rest ≠ [] := by
      cases fs with
      | nil => cases h5
      | cons f fs =>
        have := (hfs f (List.mem_cons_self f fs)).1
        simp [IntField.text, this]
    have hpos : 0 < ((fs.map IntField.text).flatten ++ rest).length :=
      List.length_pos.mpr hne
    have htl : ¬ tok.length + 1 > MAX_CLIENT_MESSAGE + 1 := by
      simp only [request_text, List.length_append] at hlen hpos
      omega
    unfold load_from_str
    rw [if_neg (by omega), hs]
    simp only [scan_ints, List.append_nil, List.length_map, h5]
    rw [if_neg htl]
    simp [params_of]
  · have hstop : stops_at Char.isDigit rest :=
      stops_isDigit_of_space rest fun c t e => hrest c (e ▸ List.mem_cons_self c t)
    have hsp : ∀ c t, (fs.map IntField.text).flatten ++ rest = c :: t →
        is_space c = true := by
      cases fs with
      | nil =>
        intro c t e
        rw [List.map_nil, List.flatten_nil, List.nil_append] at e
        exact hrest c (e ▸ List.mem_cons_self c t)
      | cons f fs =>
        rw [List.map_cons, List.flatten_cons, List.append_assoc]
        exact field_head_space f (hfs f (List.mem_cons_self f fs)) _
    obtain ⟨k, hk⟩ : ∃ k, fs.length + (k + 1) = 5 := ⟨4 - fs.length, by omega⟩
    have hs := sscanf_request tok fs rest (k + 1) h0 htok hfs hk hstop hsp
    have htl : ¬ tok.length + 1 > MAX_CLIENT_MESSAGE + 1 := by
      simp only [request_text, List.length_append] at hlen
      omega
    unfold load_from_str
    rw [if_neg (by omega), hs]
    simp only [scan_ints_space k rest hrest, List.append_nil, List.length_map]
    rw [if_neg htl, if_pos (by omega)]
  · unfold load_from_str
    rw [if_pos hlen]
  · unfold load_from_str sscanf_s_5d scan_s
    simp only [skip_space_all data hws, List.takeWhile_nil, if_true]
    split
    · rfl
    · simp [MAX_CLIENT_MESSAGE]

/-- Witness for C4 (amended): `127.0.0.1 9000 4 1 5 64` followed by a
seventh field is accepted, `127.0.0.1 9000 4 1 5` is rejected. -/
theorem load_from_str_fields_witness :
    load_from_str "127.0.0.1 9000 4 1 5 64 extra".toList
      = .accepted ⟨9000, 4, 1, 5, 64, "127.0.0.1".toList⟩ ∧
    load_from_str "127.0.0.1 9000 4 1 5".toList = .rejected := by
  have a := (load_from_str_fields "127.0.0.1".toList
    [plain_field "9000", plain_field "4", plain_field "1", plain_field "5", plain_field "64"]
    " extra".toList (by decide) (by decide) (by decide) (by decide)).1 rfl (by
      intro c t e
      injection e with e1 _
      rw [← e1]
      decide) (by decide)
  have b := (load_from_str_fields "127.0.0.1".toList
    [plain_field "9000", plain_field "4", plain_field "1", plain_field "5"]
    [] (by decide) (by decide) (by decide) (by decide)).2.1 (by decide) (by decide) (by decide)
  exact ⟨a, b⟩

/-! ## The poll selector -/

theorem flagged_from_cons (pos : Nat) (p : pollfd) (ps : List pollfd) :
    flagged_from pos (p :: ps) =
      if p.revents = 0 ∨ p.fd = -1 then flagged_from (pos + 1) ps
      else ⟨pos, p.fd, p.revents⟩ :: flagged_from (pos + 1) ps := by
  unfold flagged_from
  rw [List.enumFrom_cons, List.filter_cons]
  by_cases h : p.revents = 0 ∨ p.fd = -1
  · rw [if_pos h, if_neg]
    simp only [Bool.and_eq_true, decide_eq_true_eq, not_and_or, not_not]
    tauto
  · rw [if_neg h, if_pos, List.map_cons]
    simp only [Bool.and_eq_true, decide_eq_true_eq]
    rw [not_or] at h
    exact h

/-- What one call of the scanning loop of `next` does, in terms of the flagged
entries that lie ahead. -/
theorem next_scan_spec (l : List pollfd) (pos : Nat) :
    (∀ q, next_scan l pos = (none, q) → q = pos + l.length ∧ flagged_from pos l = []) ∧
    (∀ x q, next_scan l pos = (some x, q) →
      pos < q ∧ q ≤ pos + l.length ∧
      flagged_from pos l = ⟨q - 1, x.1, x.2⟩ :: flagged_from q (l.drop (q - pos))) := by
  induction l generalizing pos with
  | nil =>
    refine ⟨fun q h => ?_, fun x q h => ?_⟩
    · simp only [next_scan, Prod.mk.injEq, true_and] at h
      exact ⟨h.symm, rfl⟩
    · simp [next_scan] at h
  | cons p ps ih =>
    obtain ⟨ih1, ih2⟩ := ih (pos + 1)
    by_cases hp : p.revents = 0 ∨ p.fd = -1
    · have e : next_scan (p :: ps) pos = next_scan ps (pos + 1) := by
        rw [next_scan, if_pos hp]
      rw [e, flagged_from_cons, if_pos hp]
      refine ⟨fun q h => ?_, fun x q h => ?_⟩
      · obtain ⟨a, b⟩ := ih1 q h
        exact ⟨by rw [a, List.length_cons]; omega, b⟩
      · obtain ⟨a, b, c⟩ := ih2 x q h
        refine ⟨by omega, by rw [List.length_cons]; omega, ?_⟩
        have e2 : q - pos = (q - (pos + 1)) + 1 := by omega
        rw [c, e2, List.drop_succ_cons]
    · have e : next_scan (p :: ps) pos = (some (p.fd, p.revents), pos + 1) := by
        rw [next_scan, if_neg hp]
      rw [e, flagged_from_cons, if_neg hp]
      refine ⟨fun q h => ?_, fun x q h => ?_⟩
      · simp at h
      · simp only [Prod.mk.injEq, Option.some.injEq] at h
        obtain ⟨hx, hq⟩ := h
        subst hx
        subst hq
        refine ⟨by omega, by rw [List.length_cons]; omega, ?_⟩
        have e2 : pos + 1 - pos = 1 := by omega
        rw [e2, Nat.add_sub_cancel]
        rfl

/-- With enough fuel the drain reports the flagged entries from `current_ready`
on, in order, and leaves `current_ready` at the end of the array. -/
theorem drain_spec (fuel : Nat) (s : PollRSelector) (hcr : s.current_ready ≤ s.fds.length)
    (hfuel : s.fds.length - s.current_ready < fuel) :
    drain fuel s = (flagged_from s.current_ready (s.fds.drop s.current_ready),
                    { s with current_ready := s.fds.length }) := by
  induction fuel generalizing s with
  | zero => omega
  | succ fuel ih =>
    obtain ⟨n1, n2⟩ := next_scan_spec (s.fds.drop s.current_ready) s.current_ready
    cases h : next_scan (s.fds.drop s.current_ready) s.current_ready with
    | mk o q =>
      cases o with
      | none =>
        obtain ⟨a, b⟩ := n1 q h
        rw [List.length_drop] at a
        have hq : q = s.fds.length := by omega
        simp only [drain, PollRSelector.next, h, b, hq]
      | some x =>
        obtain ⟨a, b, c⟩ := n2 x q h
        rw [List.length_drop] at b
        have hq : q ≤ s.fds.length := by omega
        have hi := ih { s with current_ready := q } hq (by
          show s.fds.length - q < fuel
          omega)
        have hd : List.drop (q - s.current_ready) (List.drop s.current_ready s.fds)
            = List.drop q s.fds := by
          rw [List.drop_drop]
          congr 1
          omega
        rw [hd] at c
        simp only [drain, PollRSelector.next, h, hi, c]

theorem next_at_end (s : PollRSelector) (h : s.current_ready = s.fds.length) :
    s.next = (none, s) := by
  unfold PollRSelector.next
  rw [h, List.drop_length]
  simp only [next_scan]
  rw [← h]

theorem ready_from_cons (os : Nat → Nat) (pos : Nat) (p : pollfd) (ps : List pollfd) :
    ready_from os pos (p :: ps) =
      if 0 ≤ p.fd ∧ os pos ≠ 0 then ⟨pos, p.fd, os pos⟩ :: ready_from os (pos + 1) ps
      else ready_from os (pos + 1) ps := by
  unfold ready_from
  rw [List.enumFrom_cons, List.filter_cons]
  by_cases h : 0 ≤ p.fd ∧ os pos ≠ 0
  · rw [if_pos h, if_pos, List.map_cons]
    simpa using h
  · rw [if_neg h, if_neg]
    simpa using h

theorem poll_from_length (os : Nat → Nat) (nfds pos : Nat) (l : List pollfd) :
    (poll_from os nfds pos l).length = l.length := by
  induction l generalizing pos with
  | nil => rfl
  | cons p ps ih => simp only [poll_from, List.length_cons, ih]

/-- After `poll`, the flagged entries are the registered entries the system
reported ready. -/
theorem flagged_poll_from (os : Nat → Nat) (nfds pos : Nat) (l : List pollfd)
    (h0 : ∀ p ∈ l.drop (nfds - pos), p.revents = 0) :
    flagged_from pos (poll_from os nfds pos l) = ready_from os pos (l.take (nfds - pos)) := by
  induction l generalizing pos with
  | nil => simp [poll_from, flagged_from, ready_from]
  | cons p ps ih =>
    by_cases hpos : pos < nfds
    · have e : nfds - pos = (nfds - (pos + 1)) + 1 := by omega
      rw [e, List.drop_succ_cons] at h0
      rw [e, List.take_succ_cons, poll_from, if_pos hpos, flagged_from_cons, ready_from_cons,
        ih (pos + 1) h0]
      by_cases hfd : p.fd < 0
      · have h1 : ¬ (0 ≤ p.fd ∧ os pos ≠ 0) := by omega
        simp only [hfd, if_true, true_or, if_neg h1]
      · have hne : p.fd ≠ -1 := by omega
        by_cases hos : os pos = 0
        · simp [hfd, hos]
        · have h1 : 0 ≤ p.fd ∧ os pos ≠ 0 := ⟨by omega, hos⟩
          simp [hfd, hos, hne, h1]
    · have e : nfds - pos = 0 := by omega
      have e1 : nfds - (pos + 1) = 0 := by omega
      rw [e, List.drop_zero] at h0
      have hp : p.revents = 0 := h0 p (List.mem_cons_self p ps)
      have hi := ih (pos + 1) (by
        rw [e1, List.drop_zero]
        exact fun q hq => h0 q (List.mem_cons_of_mem p hq))
      rw [e1, List.take_zero] at hi
      rw [e, List.take_zero, poll_from, if_neg hpos, flagged_from_cons, if_pos (Or.inl hp), hi]
      rfl

theorem ready_from_pos_sorted (os : Nat → Nat) (pos : Nat) (l : List pollfd) :
    ((ready_from os pos l).map Report.pos).Pairwise (· < ·) ∧
    ∀ r ∈ ready_from os pos l, pos ≤ r.pos := by
  induction l generalizing pos with
  | nil => simp [ready_from]
  | cons p ps ih =>
    obtain ⟨i1, i2⟩ := ih (pos + 1)
    rw [ready_from_cons]
    split
    · refine ⟨?_, ?_⟩
      · rw [List.map_cons, List.pairwise_cons]
        refine ⟨fun a ha => ?_, i1⟩
        rw [List.mem_map] at ha
        obtain ⟨r, hr, rfl⟩ := ha
        have := i2 r hr
        show pos < r.pos
        omega
      · intro r hr
        rw [List.mem_cons] at hr
        rcases hr with rfl | hr
        · exact Nat.le_refl _
        · have := i2 r hr
          omega
    · exact ⟨i1, fun r hr => by have := i2 r hr; omega⟩

/-- A complete drain after a successful `wait`. -/
theorem drain_after_wait (s : PollRSelector) (hinv : s.inv) (os : Nat → Nat) (fuel : Nat)
    (hfuel : s.fds.length < fuel) :
    drain fuel (s.wait false os).2
      = (ready_entries (s.fds.take s.current_free) os,
         { (s.wait false os).2 with current_ready := (s.wait false os).2.fds.length }) := by
  have hw : s.wait false os
      = (true, { s with fds := poll_from os s.current_free 0 s.fds, current_ready := 0 }) := rfl
  have hd := drain_spec fuel (s.wait false os).2 (by rw [hw]; exact Nat.zero_le _) (by
    rw [hw]
    show (poll_from os s.current_free 0 s.fds).length - 0 < fuel
    rw [poll_from_length]
    omega)
  rw [hd]
  congr 1
  rw [hw]
  show flagged_from 0 (List.drop 0 (poll_from os s.current_free 0 s.fds)) = _
  rw [List.drop_zero, flagged_poll_from os s.current_free 0 s.fds hinv.2]
  rfl

/-- C6: for a selector satisfying its invariant, a `wait` in which `poll`
succeeds returns true, and draining `next` afterwards (any fuel above the
capacity) reports exactly the registered entries with a non-negative
descriptor to which the system assigned non-zero readiness, with descriptor
and flags, each once and in registration order (strictly increasing
positions); after the drain `next` returns false and changes nothing. -/
theorem wait_drain_reports (s : PollRSelector) (hinv : s.inv) (os : Nat → Nat) (fuel : Nat)
    (hfuel : s.fds.length < fuel) :
    (s.wait false os).1 = true ∧
    (drain fuel (s.wait false os).2).1 = ready_entries (s.fds.take s.current_free) os ∧
    ((drain fuel (s.wait false os).2).1.map Report.pos).Pairwise (· < ·) ∧
    (drain fuel (s.wait false os).2).2.next = (none, (drain fuel (s.wait false os).2).2) := by
  have hd := drain_after_wait s hinv os fuel hfuel
  refine ⟨rfl, by rw [hd], ?_, ?_⟩
  · rw [hd]
    exact (ready_from_pos_sorted os 0 _).1
  · rw [hd]
    exact next_at_end _ rfl

/-- Witness for C6: three registered descriptors, readiness on
the first and the third. -/
theorem wait_drain_reports_witness :
    sel3.inv ∧ sel3.fds.length < 5 ∧
    (drain 5 (sel3.wait false os02).2).1 = [⟨0, 7, 1⟩, ⟨2, 9, 1⟩] := by
  have t := wait_drain_reports sel3 (by decide) os02 5 (by decide)
  refine ⟨by decide, by decide, ?_⟩
  rw [t.2.1]
  decide

theorem modify_at_append (f : pollfd → pollfd) (l : List pollfd) (p : pollfd)
    (r : List pollfd) : modify_at f (l ++ p :: r) l.length = l ++ f p :: r := by
  induction l with
  | nil => rfl
  | cons a l ih =>
    show a :: modify_at f (l ++ p :: r) l.length = a :: (l ++ f p :: r)
    rw [ih]

theorem add_all_cons (fd : Int) (l : List Int) (s : PollRSelector) :
    add_all (fd :: l) s
      = ((s.add_fd fd).1 :: (add_all l (s.add_fd fd).2).1, (add_all l (s.add_fd fd).2).2) :=
  rfl

theorem add_fd_fresh (stored r : List pollfd) (cr : Nat) (fd : Int) :
    PollRSelector.add_fd ⟨stored ++ ⟨0, 0, 0⟩ :: r, stored.length, cr⟩ fd
      = (true, ⟨stored ++ registered_entry fd :: r, stored.length + 1, cr⟩) := by
  have hne : stored.length ≠ (stored ++ (⟨0, 0, 0⟩ : pollfd) :: r).length := by
    rw [List.length_append, List.length_cons]
    omega
  unfold PollRSelector.add_fd
  simp only [if_neg hne, modify_at_append]
  rfl

theorem add_all_fresh (l : List Int) (stored : List pollfd) (cr : Nat) :
    add_all l ⟨stored ++ List.replicate l.length ⟨0, 0, 0⟩, stored.length, cr⟩
      = (List.replicate l.length true,
         ⟨stored ++ l.map registered_entry, stored.length + l.length, cr⟩) := by
  induction l generalizing stored with
  | nil => simp [add_all]
  | cons fd l ih =>
    have hi := ih (stored ++ [registered_entry fd])
    rw [List.append_assoc, List.length_append, List.length_singleton,
      List.singleton_append, List.append_assoc, List.singleton_append] at hi
    rw [List.length_cons, List.replicate_succ, add_all_cons, add_fd_fresh, hi,
      List.replicate_succ, List.map_cons, Nat.add_assoc, Nat.add_comm 1]

theorem add_all_full (l : List Int) (s : PollRSelector) (h : s.current_free = s.fds.length) :
    add_all l s = (List.replicate l.length false, s) := by
  induction l with
  | nil => rfl
  | cons fd l ih =>
    have e : s.add_fd fd = (false, s) := by
      unfold PollRSelector.add_fd
      rw [if_pos h]
    rw [add_all_cons, e, ih, List.length_cons, List.replicate_succ]

theorem add_all_append (l1 l2 : List Int) (s : PollRSelector) :
    add_all (l1 ++ l2) s
      = ((add_all l1 s).1 ++ (add_all l2 (add_all l1 s).2).1, (add_all l2 (add_all l1 s).2).2) := by
  induction l1 generalizing s with
  | nil => rfl
  | cons fd l1 ih =>
    rw [List.cons_append, add_all_cons, add_all_cons, ih, List.cons_append]

/-- C8: on a selector of capacity `n ≥ 1`, the first `n` calls of `add_fd`
return true and leave the descriptors in call order, each with interest
`POLLIN`, with `current_free` at the end of the array; every further call
returns false, and after any number of them the selector (entries and
`current_free`) is as it was after the first `n` calls. -/
theorem add_fd_capacity (n : Nat) (_hn : 1 ≤ n) (l extra : List Int) (hl : l.length = n) :
    add_all l (PollRSelector.init n)
      = (List.replicate n true, ⟨l.map registered_entry, n, 0⟩) ∧
    add_all (l ++ extra) (PollRSelector.init n)
      = (List.replicate n true ++ List.replicate extra.length false,
         ⟨l.map registered_entry, n, 0⟩) ∧
    ∀ sockfd : Int, (PollRSelector.add_fd ⟨l.map registered_entry, n, 0⟩ sockfd)
      = (false, ⟨l.map registered_entry, n, 0⟩) := by
  have h1 : add_all l (PollRSelector.init n)
      = (List.replicate n true, ⟨l.map registered_entry, n, 0⟩) := by
    have := add_all_fresh l [] 0
    simp only [List.nil_append, List.length_nil, Nat.zero_add, hl] at this
    exact this
  have hfull : (⟨l.map registered_entry, n, 0⟩ : PollRSelector).current_free
      = (⟨l.map registered_entry, n, 0⟩ : PollRSelector).fds.length := by
    simp [hl]
  refine ⟨h1, ?_, fun sockfd => ?_⟩
  · rw [add_all_append, h1, add_all_full extra _ hfull]
  · have := add_all_full [sockfd] _ hfull
    simp only [add_all, List.length_singleton, List.replicate_succ, List.replicate_zero,
      Prod.mk.injEq, List.cons.injEq, and_true] at this
    exact Prod.ext this.1 this.2

/-- Witness for C8: capacity 4, six calls. -/
theorem add_fd_capacity_witness :
    add_all ([7, 8, 9, 10] ++ [11, 12]) (PollRSelector.init 4)
      = ([true, true, true, true, false, false],
         ⟨[⟨7, 1, 0⟩, ⟨8, 1, 0⟩, ⟨9, 1, 0⟩, ⟨10, 1, 0⟩], 4, 0⟩) :=
  (add_fd_capacity 4 (by decide) [7, 8, 9, 10] [11, 12] rfl).2.1

theorem getElem?_modify_at (f : pollfd → pollfd) (l : List pollfd) (k j : Nat) :
    (modify_at f l k)[j]? = if j = k then l[j]?.map f else l[j]? := by
  induction l generalizing k j with
  | nil => simp [modify_at]
  | cons p ps ih =>
    cases k with
    | zero =>
      cases j with
      | zero => simp [modify_at]
      | succ j => simp [modify_at]
    | succ k =>
      cases j with
      | zero => simp [modify_at]
      | succ j => simp [modify_at, ih]

theorem modify_at_length (f : pollfd → pollfd) (l : List pollfd) (k : Nat) :
    (modify_at f l k).length = l.length := by
  induction l generalizing k with
  | nil => rfl
  | cons p ps ih =>
    cases k with
    | zero => rfl
    | succ k => simp [modify_at, ih]

theorem getElem?_poll_from (os : Nat → Nat) (nfds pos : Nat) (l : List pollfd) (j : Nat) :
    (poll_from os nfds pos l)[j]? =
      l[j]?.map fun p =>
        if pos + j < nfds then { p with revents := if p.fd < 0 then 0 else os (pos + j) } else p := by
  induction l generalizing pos j with
  | nil => simp [poll_from]
  | cons p ps ih =>
    cases j with
    | zero => simp [poll_from]
    | succ j =>
      simp only [poll_from, List.getElem?_cons_succ, ih]
      have e : pos + 1 + j = pos + (j + 1) := by omega
      rw [e]

theorem inv_iff (s : PollRSelector) :
    s.inv ↔ s.current_free ≤ s.fds.length ∧
      ∀ j p, s.fds[j]? = some p → s.current_free ≤ j → p.revents = 0 := by
  unfold PollRSelector.inv
  constructor
  · rintro ⟨h1, h2⟩
    refine ⟨h1, fun j p hj hle => h2 p ?_⟩
    rw [List.mem_iff_getElem?]
    refine ⟨j - s.current_free, ?_⟩
    rw [List.getElem?_drop]
    have e : s.current_free + (j - s.current_free) = j := by omega
    rw [e, hj]
  · rintro ⟨h1, h2⟩
    refine ⟨h1, fun p hp => ?_⟩
    rw [List.mem_iff_getElem?] at hp
    obtain ⟨n, hn⟩ := hp
    rw [List.getElem?_drop] at hn
    exact h2 _ p hn (by omega)

theorem init_inv (fd_count : Nat) : (PollRSelector.init fd_count).inv := by
  refine ⟨Nat.zero_le _, fun p hp => ?_⟩
  have hp1 : p ∈ List.replicate fd_count (⟨0, 0, 0⟩ : pollfd) := List.mem_of_mem_drop hp
  rw [List.eq_of_mem_replicate hp1]

theorem inv_step (op : Op) (s s1 : PollRSelector) (h : op.step s = some s1) (hinv : s.inv) :
    s1.inv := by
  rw [inv_iff] at hinv ⊢
  obtain ⟨h1, h2⟩ := hinv
  cases op with
  | add_fd sockfd =>
    simp only [Op.step, PollRSelector.add_fd, Option.some.injEq] at h
    by_cases hc : s.current_free = s.fds.length
    · rw [if_pos hc] at h
      subst h
      exact ⟨h1, h2⟩
    · rw [if_neg hc] at h
      subst h
      refine ⟨?_, fun j p hj hle => ?_⟩
      · show s.current_free + 1 ≤ (modify_at _ s.fds s.current_free).length
        rw [modify_at_length]
        omega
      · have hj1 : (modify_at _ s.fds s.current_free)[j]? = some p := hj
        have hle1 : s.current_free + 1 ≤ j := hle
        rw [getElem?_modify_at, if_neg (by omega)] at hj1
        exact h2 j p hj1 (by omega)
  | wait failed os =>
    simp only [Op.step, PollRSelector.wait, Option.some.injEq] at h
    by_cases hf : failed = true
    · rw [if_pos hf] at h
      subst h
      exact ⟨h1, h2⟩
    · rw [if_neg hf] at h
      subst h
      refine ⟨?_, fun j p hj hle => ?_⟩
      · show s.current_free ≤ (poll_from os s.current_free 0 s.fds).length
        rw [poll_from_length]
        exact h1
      · have hj1 : (poll_from os s.current_free 0 s.fds)[j]? = some p := hj
        have hle1 : s.current_free ≤ j := hle
        rw [getElem?_poll_from] at hj1
        have hn : ¬ 0 + j < s.current_free := by omega
        simp only [hn, if_false, Option.map_id', id_eq] at hj1
        exact h2 j p hj1 hle1
  | next =>
    simp only [Op.step, PollRSelector.next, Option.some.injEq] at h
    subst h
    exact ⟨h1, h2⟩
  | remove_current_ready =>
    simp only [Op.step, PollRSelector.remove_current_ready] at h
    by_cases hc : s.current_ready = 0
    · rw [if_pos hc] at h
      cases h
    · rw [if_neg hc, Option.some.injEq] at h
      subst h
      refine ⟨?_, fun j p hj hle => ?_⟩
      · show s.current_free ≤ (modify_at _ s.fds (s.current_ready - 1)).length
        rw [modify_at_length]
        exact h1
      · have hj1 : (modify_at _ s.fds (s.current_ready - 1))[j]? = some p := hj
        have hle1 : s.current_free ≤ j := hle
        rw [getElem?_modify_at] at hj1
        by_cases hjk : j = s.current_ready - 1
        · rw [if_pos hjk] at hj1
          cases hq : s.fds[j]? with
          | none => rw [hq] at hj1; cases hj1
          | some q =>
            rw [hq, Option.map_some', Option.some.injEq] at hj1
            rw [← hj1]
            exact h2 j q hq hle1
        · rw [if_neg hjk] at hj1
          exact h2 j p hj1 hle1

theorem removed_step (op : Op) (s s1 : PollRSelector) (i : Nat) (h : op.step s = some s1)
    (hr : s.removed i) : s1.removed i := by
  obtain ⟨r1, r2, r3⟩ := hr
  cases op with
  | add_fd sockfd =>
    simp only [Op.step, PollRSelector.add_fd, Option.some.injEq] at h
    by_cases hc : s.current_free = s.fds.length
    · rw [if_pos hc] at h
      subst h
      exact ⟨r1, r2, r3⟩
    · rw [if_neg hc] at h
      subst h
      refine ⟨Nat.lt_succ_of_lt r1, ?_, ?_⟩
      · show s.current_free + 1 ≤ (modify_at _ s.fds s.current_free).length
        rw [modify_at_length]
        omega
      · show (modify_at _ s.fds s.current_free)[i]?.map pollfd.fd = some (-1)
        rw [getElem?_modify_at, if_neg (by omega)]
        exact r3
  | wait failed os =>
    simp only [Op.step, PollRSelector.wait, Option.some.injEq] at h
    by_cases hf : failed = true
    · rw [if_pos hf] at h
      subst h
      exact ⟨r1, r2, r3⟩
    · rw [if_neg hf] at h
      subst h
      refine ⟨r1, ?_, ?_⟩
      · show s.current_free ≤ (poll_from os s.current_free 0 s.fds).length
        rw [poll_from_length]
        exact r2
      · show (poll_from os s.current_free 0 s.fds)[i]?.map pollfd.fd = some (-1)
        rw [getElem?_poll_from, Option.map_map]
        rw [← r3]
        congr 1
        funext p
        simp only [Function.comp]
        split <;> rfl
  | next =>
    simp only [Op.step, PollRSelector.next, Option.some.injEq] at h
    subst h
    exact ⟨r1, r2, r3⟩
  | remove_current_ready =>
    simp only [Op.step, PollRSelector.remove_current_ready] at h
    by_cases hc : s.current_ready = 0
    · rw [if_pos hc] at h
      cases h
    · rw [if_neg hc, Option.some.injEq] at h
      subst h
      refine ⟨r1, ?_, ?_⟩
      · show s.current_free ≤ (modify_at _ s.fds (s.current_ready - 1)).length
        rw [modify_at_length]
        exact r2
      · show (modify_at _ s.fds (s.current_ready - 1))[i]?.map pollfd.fd = some (-1)
        rw [getElem?_modify_at]
        by_cases hik : i = s.current_ready - 1
        · rw [if_pos hik]
          cases hq : s.fds[i]? with
          | none => rw [hq] at r3; cases r3
          | some q => rfl
        · rw [if_neg hik]
          exact r3

theorem run_ops_preserves (ops : List Op) (s s1 : PollRSelector) (i : Nat)
    (h : run_ops ops s = some s1) (hinv : s.inv) (hr : s.removed i) :
    s1.inv ∧ s1.removed i := by
  induction ops generalizing s with
  | nil =>
    simp only [run_ops, Option.some.injEq] at h
    subst h
    exact ⟨hinv, hr⟩
  | cons op ops ih =>
    unfold run_ops at h
    split at h
    · cases h
    · rename_i s2 hs
      exact ih s2 h (inv_step op s s2 hs hinv) (removed_step op s s2 i hs hr)

theorem mem_flagged_from (r : Report) (pos : Nat) (l : List pollfd)
    (h : r ∈ flagged_from pos l) :
    ∃ j p, l[j]? = some p ∧ r = ⟨pos + j, p.fd, p.revents⟩ ∧ p.revents ≠ 0 ∧ p.fd ≠ -1 := by
  induction l generalizing pos with
  | nil => simp [flagged_from] at h
  | cons a l ih =>
    rw [flagged_from_cons] at h
    have tail : r ∈ flagged_from (pos + 1) l →
        ∃ j p, (a :: l)[j]? = some p ∧ r = ⟨pos + j, p.fd, p.revents⟩ ∧
          p.revents ≠ 0 ∧ p.fd ≠ -1 := by
      intro hr
      obtain ⟨j, p, h1, h2, h3, h4⟩ := ih (pos + 1) hr
      refine ⟨j + 1, p, by simpa using h1, ?_, h3, h4⟩
      rw [h2]
      congr 1
      omega
    by_cases ha : a.revents = 0 ∨ a.fd = -1
    · rw [if_pos ha] at h
      exact tail h
    · rw [if_neg ha, List.mem_cons] at h
      rw [not_or] at ha
      rcases h with h | h
      · exact ⟨0, a, List.getElem?_cons_zero, by rw [h]; rfl, ha.1, ha.2⟩
      · exact tail h

/-- Whatever the fuel, every report of a drain is an entry of the array with
non-zero `revents` whose descriptor is not -1. -/
theorem drain_sound (fuel : Nat) (s : PollRSelector) (r : Report) (h : r ∈ (drain fuel s).1) :
    ∃ p, s.fds[r.pos]? = some p ∧ p.fd ≠ -1 ∧ p.revents ≠ 0 ∧
      r.sockfd = p.fd ∧ r.flags = p.revents := by
  induction fuel generalizing s with
  | zero => simp [drain] at h
  | succ fuel ih =>
    obtain ⟨-, n2⟩ := next_scan_spec (s.fds.drop s.current_ready) s.current_ready
    cases hn : next_scan (s.fds.drop s.current_ready) s.current_ready with
    | mk o q =>
      cases o with
      | none => simp [drain, PollRSelector.next, hn] at h
      | some x =>
        obtain ⟨-, -, c⟩ := n2 x q hn
        simp only [drain, PollRSelector.next, hn, List.mem_cons] at h
        rcases h with h | h
        · have hm : r ∈ flagged_from s.current_ready (s.fds.drop s.current_ready) := by
            rw [c, h]
            exact List.mem_cons_self _ _
          obtain ⟨j, p, h1, h2, h3, h4⟩ := mem_flagged_from r _ _ hm
          rw [List.getElem?_drop] at h1
          refine ⟨p, ?_, h4, h3, ?_, ?_⟩
          · rw [h2]
            exact h1
          · rw [h2]
          · rw [h2]
        · exact ih { s with current_ready := q } h

/-- What `next` returns is the entry just before the new `current_ready`. -/
theorem next_some_entry (s s1 : PollRSelector) (x : Int × Nat) (h : s.next = (some x, s1)) :
    0 < s1.current_ready ∧ s1.fds = s.fds ∧ s1.current_free = s.current_free ∧
    ∃ p, s.fds[s1.current_ready - 1]? = some p ∧ x = (p.fd, p.revents) ∧
      p.revents ≠ 0 ∧ p.fd ≠ -1 := by
  obtain ⟨-, n2⟩ := next_scan_spec (s.fds.drop s.current_ready) s.current_ready
  cases hn : next_scan (s.fds.drop s.current_ready) s.current_ready with
  | mk o q =>
    simp only [PollRSelector.next, hn, Prod.mk.injEq] at h
    obtain ⟨ho, hs⟩ := h
    subst ho
    subst hs
    obtain ⟨a, -, c⟩ := n2 x q hn
    have hm : (⟨q - 1, x.1, x.2⟩ : Report)
        ∈ flagged_from s.current_ready (s.fds.drop s.current_ready) := by
      rw [c]
      exact List.mem_cons_self _ _
    obtain ⟨j, p, h1, h2, h3, h4⟩ := mem_flagged_from _ _ _ hm
    rw [List.getElem?_drop] at h1
    simp only [Report.mk.injEq] at h2
    refine ⟨by show 0 < q; omega, rfl, rfl, p, ?_, ?_, h3, h4⟩
    · show s.fds[q - 1]? = some p
      rw [h2.1]
      exact h1
    · exact Prod.ext h2.2.1 h2.2.2

/-- C7: when `next` has just returned the entry at position
`i = current_ready - 1`, `remove_current_ready` sets the descriptor of that
entry to -1 and changes nothing else (other fields of the entry, all other
entries, both iterators); after any further calls on the selector, a
`wait` + drain cycle never reports position `i`, whatever readiness the system
reports and whatever the number of `next` calls, and a complete drain still
reports every registered entry with a non-negative descriptor and non-zero
readiness. -/
theorem remove_current_ready_spec (s : PollRSelector) (hinv : s.inv) (x : Int × Nat)
    (s1 : PollRSelector) (hnext : s.next = (some x, s1)) :
    ∃ p s2,
      s1.fds[s1.current_ready - 1]? = some p ∧ x = (p.fd, p.revents) ∧
      s1.remove_current_ready = some s2 ∧
      s2.fds[s1.current_ready - 1]? = some { p with fd := -1 } ∧
      (∀ j, j ≠ s1.current_ready - 1 → s2.fds[j]? = s1.fds[j]?) ∧
      s2.fds.length = s1.fds.length ∧
      s2.current_free = s1.current_free ∧ s2.current_ready = s1.current_ready ∧
      ∀ (ops : List Op) (s3 : PollRSelector), run_ops ops s2 = some s3 →
        ∀ (os : Nat → Nat) (fuel : Nat),
          (∀ r ∈ (drain fuel (s3.wait false os).2).1, r.pos ≠ s1.current_ready - 1) ∧
          (s3.fds.length < fuel →
            (drain fuel (s3.wait false os).2).1
              = ready_entries (s3.fds.take s3.current_free) os) := by
  obtain ⟨hpos, hfds, hcf, p, hp, hx, hrev, hfd⟩ := next_some_entry s s1 x hnext
  have hs1 : s1 = s.next.2 := by rw [hnext]
  have hinv1 : s1.inv := inv_step Op.next s s1 (by rw [hs1]; rfl) hinv
  have hrm : s1.remove_current_ready
      = some { s1 with fds := modify_at (fun p => { p with fd := -1 }) s1.fds
                                (s1.current_ready - 1) } := by
    unfold PollRSelector.remove_current_ready
    rw [if_neg (by omega)]
  have hp1 : s1.fds[s1.current_ready - 1]? = some p := by rw [hfds]; exact hp
  refine ⟨p, _, hp1, hx, hrm, ?_, fun j hj => ?_, ?_, rfl, rfl, ?_⟩
  · show (modify_at _ s1.fds (s1.current_ready - 1))[s1.current_ready - 1]? = _
    rw [getElem?_modify_at, if_pos rfl, hp1]
    rfl
  · show (modify_at _ s1.fds (s1.current_ready - 1))[j]? = _
    rw [getElem?_modify_at, if_neg hj]
  · exact modify_at_length _ _ _
  · have hinv2 := inv_step Op.remove_current_ready s1 _ hrm hinv1
    have hlt : s1.current_ready - 1 < s1.current_free := by
      by_contra hge
      exact hrev (((inv_iff s1).mp hinv1).2 _ p hp1 (by omega))
    have hrem2 : PollRSelector.removed
        { s1 with fds := modify_at (fun p => { p with fd := -1 }) s1.fds
                            (s1.current_ready - 1) } (s1.current_ready - 1) := by
      refine ⟨hlt, ?_, ?_⟩
      · show s1.current_free ≤ (modify_at _ s1.fds (s1.current_ready - 1)).length
        rw [modify_at_length]
        exact hinv1.1
      · show (modify_at _ s1.fds (s1.current_ready - 1))[s1.current_ready - 1]?.map pollfd.fd = _
        rw [getElem?_modify_at, if_pos rfl, hp1]
        rfl
    intro ops s3 hrun os fuel
    obtain ⟨hinv3, hrem3⟩ := run_ops_preserves ops _ s3 _ hrun hinv2 hrem2
    refine ⟨fun r hr hri => ?_, fun hfuel => ?_⟩
    · have hrem4 := removed_step (Op.wait false os) s3 _ _ rfl hrem3
      obtain ⟨q, hq, hqfd, -⟩ := drain_sound fuel _ r hr
      have h3 := hrem4.2.2
      rw [← hri, hq] at h3
      simp only [Option.map_some', Option.some.injEq] at h3
      exact hqfd h3
    · rw [drain_after_wait s3 hinv3 os fuel hfuel]

/-- Witness for C7: in `sel3_ready`, `next` returns
descriptor 7 at position 0; once it is removed, a cycle with the same readiness
reports only position 2. -/
theorem remove_current_ready_spec_witness :
    sel3_ready.inv ∧
    sel3_ready.next = (some (7, 1), { sel3_ready with current_ready := 1 }) ∧
    ∃ s2, PollRSelector.remove_current_ready { sel3_ready with current_ready := 1 } = some s2 ∧
      (∀ r ∈ (drain 5 (s2.wait false os02).2).1, r.pos ≠ 0) ∧
      (drain 5 (s2.wait false os02).2).1 = [⟨2, 9, 1⟩] := by
  have hn : sel3_ready.next = (some (7, 1), { sel3_ready with current_ready := 1 }) := by
    decide
  obtain ⟨p, s2, -, -, h3, -, -, -, -, -, h9⟩ :=
    remove_current_ready_spec sel3_ready (by decide) (7, 1) _ hn
  refine ⟨by decide, hn, s2, h3, (h9 [] s2 rfl os02 5).1, ?_⟩
  have e : s2 = ⟨[⟨-1, 1, 1⟩, ⟨8, 1, 0⟩, ⟨9, 1, 1⟩, ⟨0, 0, 0⟩], 3, 1⟩ := by
    have h3b : PollRSelector.remove_current_ready { sel3_ready with current_ready := 1 }
        = some ⟨[⟨-1, 1, 1⟩, ⟨8, 1, 0⟩, ⟨9, 1, 1⟩, ⟨0, 0, 0⟩], 3, 1⟩ := by decide
    rw [h3b] at h3
    exact (Option.some.inj h3).symm
  subst e
  decide

/-! ## The partition of the connections -/

theorem share_end_last (n W step : Nat) : share_end n W step (W - 1) = n := by
  unfold share_end
  rw [if_pos rfl]

theorem share_end_inner (n W step i : Nat) (h : i ≠ W - 1) :
    share_end n W step i = step * i + step := by
  unfold share_end
  rw [if_neg h, Nat.mul_succ]

theorem partition_from_spec (sockets : List Int) (W step : Nat) (hstep : 1 ≤ step)
    (hW : step * W ≤ sockets.length) (todo i : Nat) (hi : todo + i = W) (ht : 1 ≤ todo) :
    partition_from sockets W step todo i
      = .shares ((List.range' i todo).map (share_of sockets W step)) ∧
    ((List.range' i todo).map (share_of sockets W step)).flatten = sockets.drop (step * i) := by
  induction todo generalizing i with
  | zero => omega
  | succ todo ih =>
    have hle : step * (i + 1) ≤ step * W := Nat.mul_le_mul_left step (by omega)
    rw [Nat.mul_succ] at hle
    cases todo with
    | zero =>
      have hiW : i = W - 1 := by omega
      have he : share_end sockets.length W step i = sockets.length := by
        rw [hiW]
        exact share_end_last _ _ _
      have hshare : share_of sockets W step i = sockets.drop (step * i) := by
        unfold share_of
        rw [he]
        apply List.take_of_length_le
        rw [List.length_drop]
      refine ⟨?_, ?_⟩
      · simp only [partition_from, he]
        rw [if_neg (by omega), if_neg (by omega)]
        rfl
      · simp [List.range', hshare]
    | succ todo =>
      have hiW : i ≠ W - 1 := by omega
      have he : share_end sockets.length W step i = step * i + step :=
        share_end_inner _ _ _ _ hiW
      obtain ⟨i1, i2⟩ := ih (i + 1) (by omega) (by omega)
      have hshare : share_of sockets W step i = (sockets.drop (step * i)).take step := by
        unfold share_of
        rw [he, Nat.add_sub_cancel_left]
      refine ⟨?_, ?_⟩
      · rw [partition_from]
        simp only [he]
        rw [if_neg (by omega), if_neg (by omega), i1]
        rfl
      · have hdd : sockets.drop (step * (i + 1)) = (sockets.drop (step * i)).drop step := by
          rw [List.drop_drop, Nat.mul_succ]
        rw [List.range'_succ, List.map_cons, List.flatten_cons, i2, hshare, hdd]
        exact List.take_append_drop _ _

/-- C9: for `n ≥ 1` connections and `w ≥ 1` requested workers, with
`W = min w n` and `step = n / W`, the partition loop of `run_test` does not take
the empty-share branch and gives `W` shares: worker `i < W - 1` gets the
descriptors at positions `[step * i, step * (i + 1))`, the last worker those at
`[step * (W - 1), n)`; the shares concatenated in worker order are the whole
sequence, every share is non-empty, every share but the last has `n / W`
descriptors and the last has `n / W + n % W`. -/
theorem run_test_partition_spec (sockets : List Int) (w : Nat)
    (hn : 1 ≤ sockets.length) (hw : 1 ≤ w) :
    clamp_workers sockets.length w = min w sockets.length ∧
    ∃ l, run_test_partition sockets w = .shares l ∧
      l.length = min w sockets.length ∧
      l.flatten = sockets ∧
      (∀ i, i < min w sockets.length - 1 →
        l[i]? = some ((sockets.drop (sockets.length / min w sockets.length * i)).take
                        (sockets.length / min w sockets.length))) ∧
      l[min w sockets.length - 1]?
        = some (sockets.drop (sockets.length / min w sockets.length
                                * (min w sockets.length - 1))) ∧
      (∀ i s, i < min w sockets.length - 1 → l[i]? = some s →
        s.length = sockets.length / min w sockets.length) ∧
      (∀ s, l[min w sockets.length - 1]? = some s →
        s.length = sockets.length / min w sockets.length
                    + sockets.length % min w sockets.length) ∧
      ∀ s ∈ l, s ≠ [] := by
  have hc : clamp_workers sockets.length w = min w sockets.length := by
    unfold clamp_workers
    split <;> omega
  refine ⟨hc, ?_⟩
  generalize hWdef : min w sockets.length = W
  generalize hsdef : sockets.length / W = step
  have hW1 : 1 ≤ W := by omega
  have hWn : W ≤ sockets.length := by omega
  have hstep : 1 ≤ step := by
    rw [← hsdef]
    exact Nat.div_pos hWn hW1
  have hmul : step * W ≤ sockets.length := by
    rw [← hsdef]
    exact Nat.div_mul_le_self _ _
  have hdm : step * W + sockets.length % W = sockets.length := by
    rw [← hsdef, Nat.mul_comm]
    exact Nat.div_add_mod _ _
  have hsucc : step * W = step * (W - 1) + step := by
    have e : W = (W - 1) + 1 := by omega
    conv_lhs => rw [e]
    rw [Nat.mul_succ]
  obtain ⟨p1, p2⟩ := partition_from_spec sockets W step hstep hmul W 0 (by omega) hW1
  have hrun : run_test_partition sockets w
      = .shares ((List.range' 0 W).map (share_of sockets W step)) := by
    unfold run_test_partition
    simp only [hc, hWdef, hsdef]
    rw [if_neg (by omega), p1]
  have hget : ∀ i, i < W → ((List.range' 0 W).map (share_of sockets W step))[i]?
      = some (share_of sockets W step i) := by
    intro i hi
    rw [List.getElem?_map, List.getElem?_range' _ _ hi]
    simp
  have hinner : ∀ i, i < W - 1 →
      share_of sockets W step i = (sockets.drop (step * i)).take step := by
    intro i hi
    unfold share_of
    rw [share_end_inner _ _ _ _ (by omega), Nat.add_sub_cancel_left]
  have hlast : share_of sockets W step (W - 1) = sockets.drop (step * (W - 1)) := by
    unfold share_of
    rw [share_end_last]
    apply List.take_of_length_le
    rw [List.length_drop]
  have hlen_inner : ∀ i, i < W - 1 → (share_of sockets W step i).length = step := by
    intro i hi
    have hle : step * (i + 1) ≤ step * (W - 1) := Nat.mul_le_mul_left step (by omega)
    rw [Nat.mul_succ] at hle
    rw [hinner i hi, List.length_take, List.length_drop]
    omega
  have hlen_last : (share_of sockets W step (W - 1)).length
      = step + sockets.length % W := by
    rw [hlast, List.length_drop]
    omega
  refine ⟨_, hrun, by simp, by simpa using p2, fun i hi => ?_, ?_, fun i s hi hs => ?_,
    fun s hs => ?_, fun s hs => ?_⟩
  · rw [hget i (by omega), hinner i hi]
  · rw [hget (W - 1) (by omega), hlast]
  · rw [hget i (by omega)] at hs
    rw [← Option.some.inj hs]
    exact hlen_inner i hi
  · rw [hget (W - 1) (by omega)] at hs
    rw [← Option.some.inj hs]
    exact hlen_last
  · rw [List.mem_map] at hs
    obtain ⟨i, hi, rfl⟩ := hs
    rw [List.mem_range'_1] at hi
    apply List.ne_nil_of_length_pos
    by_cases hiW : i < W - 1
    · rw [hlen_inner i hiW]
      omega
    · have e : i = W - 1 := by omega
      rw [e, hlen_last]
      omega

/-- Witness for C9: seven connections, three workers. -/
theorem run_test_partition_spec_witness :
    ∃ l, run_test_partition [10, 11, 12, 13, 14, 15, 16] 3 = .shares l ∧
      l.length = 3 ∧ l.flatten = [10, 11, 12, 13, 14, 15, 16] ∧
      l[2]? = some [14, 15, 16] := by
  obtain ⟨l, h1, h2, h3, -, h5, -⟩ :=
    (run_test_partition_spec [10, 11, 12, 13, 14, 15, 16] 3 (by decide) (by decide)).2
  exact ⟨l, h1, h2, h3, h5⟩

/-! ## Failure of `bind` and `listen` -/

/-- C10 (the code at the failing input): when `bind` is rejected,
`wait_for_conn` returns true with no connection and no callback invoked, so
`run_test_th` returns 0 after `preparation_done` and `test_done`, and
`run_test` does not return 1 but reaches its event loop with no descriptor
registered; when `listen` is rejected, the ready callback is invoked and
`accept` is called all the same. -/
theorem wait_for_conn_bind_rejected :
    wait_for_conn 4 true true false os_bind_rejected = (true, [], []) ∧
    run_test_th 4 os_bind_rejected = (0, [Action.preparation_done, Action.test_done]) ∧
    run_test_setup (PollRSelector.init 4) 4 os_bind_rejected
      = .inr (PollRSelector.init 4, [Action.preparation_done]) ∧
    wait_for_conn 4 true true false os_listen_rejected
      = (false, [], [Action.ready_for_connect, Action.accept (-1)]) := by
  decide

/-! ## `log2_64` -/

/-- One smearing step doubles the window of bits gathered below each position. -/
theorem smear_step (v a k : Nat)
    (h : ∀ i, a.testBit i = true ↔ ∃ j, j < k ∧ v.testBit (i + j) = true) (i : Nat) :
    (a ||| (a >>> k)).testBit i = true ↔ ∃ j, j < 2 * k ∧ v.testBit (i + j) = true := by
  rw [Nat.testBit_or, Nat.testBit_shiftRight, Bool.or_eq_true, h, h]
  constructor
  · rintro (⟨j, hj, hb⟩ | ⟨j, hj, hb⟩)
    · exact ⟨j, by omega, hb⟩
    · refine ⟨k + j, by omega, ?_⟩
      have e : i + (k + j) = k + i + j := by omega
      rw [e]
      exact hb
  · rintro ⟨j, hj, hb⟩
    by_cases hjk : j < k
    · exact Or.inl ⟨j, hjk, hb⟩
    · refine Or.inr ⟨j - k, by omega, ?_⟩
      have e : k + i + (j - k) = i + j := by omega
      rw [e]
      exact hb

/-- After the six steps, bit `i` of the smeared value is set exactly when one
of the 64 bits of the value from `i` upwards is set. -/
theorem smear_testBit (v i : Nat) :
    (smear v).testBit i = true ↔ ∃ j, j < 64 ∧ v.testBit (i + j) = true := by
  have h0 : ∀ i, v.testBit i = true ↔ ∃ j, j < 1 ∧ v.testBit (i + j) = true := by
    intro i
    constructor
    · intro h
      exact ⟨0, by omega, h⟩
    · rintro ⟨j, hj, hb⟩
      have e : j = 0 := by omega
      subst e
      exact hb
  have h1 := smear_step v v 1 h0
  have h2 := smear_step v _ 2 h1
  have h3 := smear_step v _ 4 h2
  have h4 := smear_step v _ 8 h3
  have h5 := smear_step v _ 16 h4
  have h6 := smear_step v _ 32 h5
  exact h6 i

theorem testBit_top (v r : Nat) (h1 : 2 ^ r ≤ v) (h2 : v < 2 ^ (r + 1)) :
    v.testBit r = true ∧ ∀ i, r < i → v.testBit i = false := by
  have hhigh : ∀ i, r < i → v.testBit i = false := fun i hi =>
    Nat.testBit_lt_two_pow (Nat.lt_of_lt_of_le h2 (Nat.pow_le_pow_right (by decide) hi))
  refine ⟨?_, hhigh⟩
  by_contra hr
  have hall : ∀ i, i ≥ r → v.testBit i = false := by
    intro i hi
    by_cases e : i = r
    · rw [e]
      simpa using hr
    · exact hhigh i (by omega)
  have := Nat.lt_pow_two_of_testBit v hall
  omega

/-- The bit smearing leaves `2^(r+1) - 1` when the highest set bit is bit `r`. -/
theorem smear_eq (v r : Nat) (hr : r < 64) (h1 : 2 ^ r ≤ v) (h2 : v < 2 ^ (r + 1)) :
    smear v = 2 ^ (r + 1) - 1 := by
  obtain ⟨ht, hhigh⟩ := testBit_top v r h1 h2
  apply Nat.eq_of_testBit_eq
  intro i
  rw [Nat.testBit_two_pow_sub_one, Bool.eq_iff_iff, smear_testBit, decide_eq_true_eq]
  constructor
  · rintro ⟨j, -, hb⟩
    by_contra hi
    rw [hhigh (i + j) (by omega)] at hb
    cases hb
  · intro hi
    refine ⟨r - i, by omega, ?_⟩
    have e : i + (r - i) = r := by omega
    rw [e]
    exact ht

/-- Subtracting the half isolates the highest set bit. -/
theorem smear_sub_half (r : Nat) :
    (2 ^ (r + 1) - 1) - ((2 ^ (r + 1) - 1) >>> 1) = 2 ^ r := by
  rw [Nat.shiftRight_eq_div_pow, Nat.pow_one, Nat.pow_succ]
  have hx : 0 < 2 ^ r := Nat.two_pow_pos r
  omega

/-- The table maps the index computed from `2^r` to `r`. -/
theorem tab64_pow : ∀ r, r < 64 →
    tab64.get? (((2 ^ r * 0x07EDD5E59A4E28C2) % U64) >>> 58) = some r := by
  decide

/-- The table index is below 64 whatever the value. -/
theorem log2_64_index_lt (value : Nat) : log2_64_index value < 64 := by
  unfold log2_64_index
  simp only
  rw [Nat.shiftRight_eq_div_pow]
  generalize (smear (value % U64) - smear (value % U64) >>> 1) * 0x07EDD5E59A4E28C2 = x
  have h : x % U64 < U64 := Nat.mod_lt _ U64_pos
  have e : U64 = 2 ^ 58 * 64 := by decide
  apply Nat.div_lt_of_lt_mul
  rw [← e]
  exact h

theorem log2_64_index_eq (v r : Nat) (hr : r < 64) (h1 : 2 ^ r ≤ v) (h2 : v < 2 ^ (r + 1))
    (h64 : v < 2 ^ 64) :
    log2_64_index v = ((2 ^ r * 0x07EDD5E59A4E28C2) % U64) >>> 58 := by
  have hm : v % U64 = v := Nat.mod_eq_of_lt h64
  unfold log2_64_index
  simp only [hm]
  rw [smear_eq v r hr h1 h2, smear_sub_half]

/-- C12: for every 64-bit value `v` with `1 ≤ v < 2^64` there is an `r` in
`0..63` with `2^r ≤ v < 2^(r+1)`, it is the only such number, and `log2_64 v`
returns it: the smearing leaves `2^(r+1) - 1`, subtracting the half leaves
`2^r`, and the table entry at the index computed from `2^r` is `r`. The index
is below 64 for every value, the table has 64 entries, and `log2_64 0` is 63. -/
theorem log2_64_spec (v : Nat) (h1 : 1 ≤ v) (h2 : v < 2 ^ 64) :
    (∃ r, r < 64 ∧ 2 ^ r ≤ v ∧ v < 2 ^ (r + 1) ∧
      (∀ q, 2 ^ q ≤ v → v < 2 ^ (q + 1) → q = r) ∧
      log2_64 v = some r ∧
      smear v = 2 ^ (r + 1) - 1 ∧
      smear v - (smear v >>> 1) = 2 ^ r ∧
      tab64.get? (((2 ^ r * 0x07EDD5E59A4E28C2) % U64) >>> 58) = some r) ∧
    (∀ x, log2_64_index x < 64) ∧ tab64.length = 64 ∧ log2_64 0 = some 63 := by
  refine ⟨⟨v.log2, ?_⟩, log2_64_index_lt, by decide, by decide⟩
  have hv : v ≠ 0 := by omega
  have hlo : 2 ^ v.log2 ≤ v := Nat.log2_self_le hv
  have hhi : v < 2 ^ (v.log2 + 1) := Nat.lt_log2_self
  have hr : v.log2 < 64 := (Nat.log2_lt hv).mpr h2
  have hs := smear_eq v v.log2 hr hlo hhi
  refine ⟨hr, hlo, hhi, fun q hq1 hq2 => ?_, ?_, hs, ?_, tab64_pow _ hr⟩
  · have a : q < v.log2 + 1 :=
      (Nat.pow_lt_pow_iff_right (by decide : 1 < 2)).mp (Nat.lt_of_le_of_lt hq1 hhi)
    have b : v.log2 < q + 1 :=
      (Nat.pow_lt_pow_iff_right (by decide : 1 < 2)).mp (Nat.lt_of_le_of_lt hlo hq2)
    omega
  · unfold log2_64
    rw [log2_64_index_eq v v.log2 hr hlo hhi h2]
    exact tab64_pow _ hr
  · rw [hs]
    exact smear_sub_half _

/-- Witness for C12: `2^9 ≤ 1000 < 2^10`. -/
theorem log2_64_spec_witness : log2_64 1000 = some 9 := by
  obtain ⟨r, -, h1, h2, hu, hl, -⟩ := (log2_64_spec 1000 (by decide) (by decide)).1
  have e : 9 = r := hu 9 (by decide) (by decide)
  rw [hl, e]

/-! ## Values of an accepted request -/

theorem digitChar_isDigit : ∀ d, d < 10 →
    (Nat.digitChar d).isDigit = true ∧ (Nat.digitChar d).toNat - '0'.toNat = d := by
  decide

theorem digits_value_append (ds : List Char) (c : Char) :
    digits_value (ds ++ [c]) = digits_value ds * 10 + (c.toNat - '0'.toNat) := by
  unfold digits_value
  rw [List.foldl_append]
  rfl

/-- The digits produced with enough fuel are decimal digits and have the value
of the number. -/
theorem toDigitsCore_digits (f n : Nat) (h : n < f) :
    (∀ c ∈ Nat.toDigitsCore 10 f n [], c.isDigit = true) ∧
    digits_value (Nat.toDigitsCore 10 f n []) = n := by
  induction f generalizing n with
  | zero => omega
  | succ f ih =>
    have hd : n % 10 < 10 := Nat.mod_lt _ (by decide)
    obtain ⟨d1, d2⟩ := digitChar_isDigit _ hd
    simp only [Nat.toDigitsCore]
    split
    · rename_i h0
      refine ⟨fun c hc => ?_, ?_⟩
      · rw [List.mem_singleton] at hc
        rw [hc]
        exact d1
      · have e := digits_value_append [] (Nat.digitChar (n % 10))
        rw [List.nil_append] at e
        rw [e, d2]
        show 0 * 10 + n % 10 = n
        omega
    · rename_i h0
      obtain ⟨i1, i2⟩ := ih (n / 10) (by omega)
      rw [toDigitsCore_append]
      refine ⟨fun c hc => ?_, ?_⟩
      · rw [List.mem_append, List.mem_singleton] at hc
        rcases hc with hc | hc
        · exact i1 c hc
        · rw [hc]
          exact d1
      · rw [digits_value_append, i2, d2]
        omega

theorem int_field_wf (v : Int) : (int_field v).wf := by
  have hd := toDigitsCore_digits (v.natAbs + 1) v.natAbs (Nat.lt_succ_self _)
  refine ⟨by simp [int_field], by simp [int_field, is_space], ?_, ?_, hd.1⟩
  · unfold int_field
    by_cases hv : v < 0
    · simp [hv]
    · simp [hv]
  · exact put_unsigned_ne_nil v.natAbs

theorem int_field_value (v : Int) : (int_field v).value = v := by
  have hd := (toDigitsCore_digits (v.natAbs + 1) v.natAbs (Nat.lt_succ_self _)).2
  unfold IntField.value int_field
  simp only
  have hdv : digits_value (Nat.toDigits 10 v.natAbs) = v.natAbs := hd
  rw [hdv]
  by_cases hv : v < 0
  · simp only [hv, if_true]
    omega
  · simp only [hv, if_false]
    rw [if_neg (by simp)]
    omega

/-- A token followed by five well-formed integer fields is accepted with the
values of the fields, whatever they are. -/
theorem load_from_str_five (tok : List Char) (fs : List IntField) (rest : List Char)
    (h0 : tok ≠ []) (htok : ∀ c ∈ tok, is_space c = false) (hfs : ∀ f ∈ fs, f.wf)
    (h5 : fs.length = 5) (hrest : stops_at Char.isDigit rest)
    (hlen : (request_text tok fs rest).length ≤ MAX_CLIENT_MESSAGE + 1) :
    load_from_str (request_text tok fs rest)
      = .accepted (params_of tok (fs.map IntField.value)) := by
  cases fs with
  | nil => cases h5
  | cons f fs =>
    have hf := hfs f (List.mem_cons_self f fs)
    have hsp : ∀ c t, ((f :: fs).map IntField.text).flatten ++ rest = c :: t →
        is_space c = true := by
      rw [List.map_cons, List.flatten_cons, List.append_assoc]
      exact field_head_space f hf _
    have hs := sscanf_request tok (f :: fs) rest 0 h0 htok hfs (by omega) hrest hsp
    have hne : ((f :: fs).map IntField.text).flatten ++ rest ≠ [] := by
      simp [IntField.text, hf.1]
    have hpos : 0 < (((f :: fs).map IntField.text).flatten ++ rest).length :=
      List.length_pos.mpr hne
    have htl : ¬ tok.length + 1 > MAX_CLIENT_MESSAGE + 1 := by
      simp only [request_text, List.length_append] at hlen hpos
      omega
    unfold load_from_str
    rw [if_neg (by omega), hs]
    simp only [scan_ints, List.append_nil, List.length_map, h5]
    rw [if_neg htl]
    simp [params_of]

theorem run_test_divisor_one (num_conn : Int) :
    run_test_divisor num_conn 1 = min 1 num_conn ∧
    (1 ≤ num_conn → run_test_divisor num_conn 1 = 1 ∧ run_test_step num_conn 1 = some num_conn) := by
  have hmin : run_test_divisor num_conn 1 = min 1 num_conn := by
    unfold run_test_divisor
    split <;> omega
  refine ⟨hmin, fun h => ?_⟩
  have h1 : run_test_divisor num_conn 1 = 1 := by
    rw [hmin]
    omega
  refine ⟨h1, ?_⟩
  unfold run_test_step
  rw [h1, if_neg (by decide), Int.tdiv_one]

/-- C11 (as stated, refuted): the six-field request with connection count 0 is
accepted, and `run_test` called with one worker then has divisor
`min(1, 0) = 0`, so the share size is a division by zero; a request with a
negative count and a negative size is accepted as well. -/
theorem load_from_str_accepts_zero_connections :
    load_from_str "127.0.0.1 9000 0 1 5 64".toList
      = .accepted ⟨9000, 0, 1, 5, 64, "127.0.0.1".toList⟩ ∧
    run_test_divisor 0 1 = 0 ∧ run_test_step 0 1 = none ∧
    run_test_partition [] 1 = .div_by_zero ∧
    load_from_str "127.0.0.1 9000 -3 1 5 -64".toList
      = .accepted ⟨9000, -3, 1, 5, -64, "127.0.0.1".toList⟩ := by
  decide

/-- C11 (amended): `load_from_str` checks the shape of a request, not its
values: a token followed by five integers, whatever their values within `int`,
is accepted (at most 1025 characters) and `TestParams` carries the values as
written, a connection count or message size of 0 or below included. The
divisor of `run_test` called with one worker is `min(1, num_conn)`; for a
connection count of at least 1 it is 1 and the share size is `num_conn`. -/
theorem load_from_str_keeps_values (tok : List Char) (vals : List Int)
    (h0 : tok ≠ []) (htok : ∀ c ∈ tok, is_space c = false) (h5 : vals.length = 5)
    (_hrange : ∀ v ∈ vals, -2 ^ 31 ≤ v ∧ v < 2 ^ 31)
    (hlen : (request_text tok (vals.map int_field) []).length ≤ MAX_CLIENT_MESSAGE + 1) :
    load_from_str (request_text tok (vals.map int_field) [])
      = .accepted (params_of tok vals) ∧
    (params_of tok vals).num_conn = vals.getD 1 0 ∧
    (params_of tok vals).message_len = vals.getD 4 0 ∧
    run_test_divisor (params_of tok vals).num_conn 1 = min 1 (params_of tok vals).num_conn ∧
    (1 ≤ (params_of tok vals).num_conn →
      run_test_divisor (params_of tok vals).num_conn 1 = 1 ∧
      run_test_step (params_of tok vals).num_conn 1 = some (params_of tok vals).num_conn) := by
  have hvals : (vals.map int_field).map IntField.value = vals := by
    rw [List.map_map]
    conv_rhs => rw [← List.map_id vals]
    apply List.map_congr_left
    intro v _
    exact int_field_value v
  have hacc := load_from_str_five tok (vals.map int_field) [] h0 htok
    (fun f hf => by
      rw [List.mem_map] at hf
      obtain ⟨v, -, rfl⟩ := hf
      exact int_field_wf v)
    (by rw [List.length_map, h5]) (fun c t e => by cases e) hlen
  rw [hvals] at hacc
  obtain ⟨d1, d2⟩ := run_test_divisor_one (params_of tok vals).num_conn
  exact ⟨hacc, rfl, rfl, d1, d2⟩

/-- Witness for C11 (amended): counts and sizes of 0 or below are kept; with
four connections the divisor is 1 and the share size 4. -/
theorem load_from_str_keeps_values_witness :
    load_from_str "127.0.0.1 9000 -3 1 5 0".toList
      = .accepted ⟨9000, -3, 1, 5, 0, "127.0.0.1".toList⟩ ∧
    load_from_str "127.0.0.1 9000 4 1 5 64".toList
      = .accepted ⟨9000, 4, 1, 5, 64, "127.0.0.1".toList⟩ ∧
    run_test_step 4 1 = some 4 := by
  have a := load_from_str_keeps_values "127.0.0.1".toList [9000, -3, 1, 5, 0]
    (by decide) (by decide) rfl (by decide) (by decide)
  have b := load_from_str_keeps_values "127.0.0.1".toList [9000, 4, 1, 5, 64]
    (by decide) (by decide) rfl (by decide) (by decide)
  exact ⟨a.1, b.1, (b.2.2.2.2 (by decide)).2⟩

end NetworkPingTest
